import Mathlib

/-!
Shallow embedding of the `udon-core` crate of v2-io/libudon.

Embedded components:
* `value.rs` — the scalar value recognizer `Value::parse` and its helpers
  (`try_parse_number`, `try_parse_decimal`, `try_parse_hex`, `try_parse_octal`,
  `try_parse_binary`, `try_parse_float`, `try_parse_rational`,
  `try_parse_complex`, `parse_digits`, `parse_float_simple`);
* `event.rs` / `streaming.rs` — the event enumeration (variant names) and the
  `ParseErrorCode` enumeration;
* `streaming.rs` — `Chunk`, `ChunkArena`, `ChunkSlice`, `EventRing`.

Bytes are modelled as `Nat` (values 0..255 in practice), byte strings as
`List Nat`.  `i64` arithmetic is modelled as `Int` with explicit range checks
mirroring Rust's `checked_mul` / `checked_add` / `checked_neg`.  IEEE-754
values are not modelled; a float value is represented by the literal text the
platform parser accepted (the recognizer only decides acceptance and carries
the bytes through).
-/

namespace Udon

/-- Lower bound of Rust's `i64`. -/
def i64Min : Int := -(2 ^ 63)

/-- Upper bound of Rust's `i64`. -/
def i64Max : Int := 2 ^ 63 - 1

/-- Rust `i64::checked_mul`: the product, unless it leaves the `i64` range. -/
def checkedMul (a b : Int) : Option Int :=
  if i64Min ≤ a * b ∧ a * b ≤ i64Max then some (a * b) else none

/-- Rust `i64::checked_add`: the sum, unless it leaves the `i64` range. -/
def checkedAdd (a b : Int) : Option Int :=
  if i64Min ≤ a + b ∧ a + b ≤ i64Max then some (a + b) else none

/-- Rust `i64::checked_neg`: fails exactly at `i64::MIN`. -/
def checkedNeg (a : Int) : Option Int :=
  if a = i64Min then none else some (-a)

/-- ASCII decimal digit `b'0'..=b'9'`. -/
def isAsciiDigit (b : Nat) : Bool :=
  decide (48 ≤ b) && decide (b ≤ 57)

/-- Value of the enum `Value<'a>` in `value.rs`.  String payloads are the
underlying byte slices; a float is represented by the underscore-stripped
literal accepted by the platform parser plus the sign flag applied by
`try_parse_float` (the IEEE value itself is not modelled). -/
inductive Value where
  | nil
  | bool (b : Bool)
  | integer (v : Int)
  | float (negated : Bool) (lit : List Nat)
  | rational (numerator denominator : Int)
  | complex (re im : List Nat)
  | string (bytes : List Nat)
  | quotedString (bytes : List Nat)
  | list (items : List Value)

/-- Accumulation loop of `Value::try_parse_decimal` (and of `parse_digits`):
`result = result.checked_mul(10)?.checked_add(digit)?`, `'_'` skipped, any
other byte aborts with `None`. -/
def decLoop (r : Int) : List Nat → Option Int
  | [] => some r
  | b :: rest =>
    if isAsciiDigit b then
      match checkedMul r 10 with
      | none => none
      | some x =>
        match checkedAdd x ((b : Int) - 48) with
        | none => none
        | some y => decLoop y rest
    else if b = 95 then decLoop r rest
    else none

/-- `Value::try_parse_decimal` from `value.rs`. -/
def tryParseDecimal (negative : Bool) (bytes : List Nat) : Option Value :=
  if bytes = [] then none
  else
    match decLoop 0 bytes with
    | none => none
    | some r =>
      if negative then
        match checkedNeg r with
        | none => none
        | some r2 => some (.integer r2)
      else some (.integer r)

/-- Hex digit value used by `Value::try_parse_hex`. -/
def hexDigit (b : Nat) : Option Nat :=
  if 48 ≤ b ∧ b ≤ 57 then some (b - 48)
  else if 97 ≤ b ∧ b ≤ 102 then some (b - 97 + 10)
  else if 65 ≤ b ∧ b ≤ 70 then some (b - 65 + 10)
  else none

/-- Accumulation loop of `Value::try_parse_hex`. -/
def hexLoop (r : Int) : List Nat → Option Int
  | [] => some r
  | b :: rest =>
    if b = 95 then hexLoop r rest
    else
      match hexDigit b with
      | none => none
      | some d =>
        match checkedMul r 16 with
        | none => none
        | some x =>
          match checkedAdd x (d : Int) with
          | none => none
          | some y => hexLoop y rest

/-- `Value::try_parse_hex` from `value.rs`. -/
def tryParseHex (negative : Bool) (bytes : List Nat) : Option Value :=
  if bytes = [] then none
  else
    match hexLoop 0 bytes with
    | none => none
    | some r =>
      if negative then
        match checkedNeg r with
        | none => none
        | some r2 => some (.integer r2)
      else some (.integer r)

/-- Accumulation loop of `Value::try_parse_octal`. -/
def octLoop (r : Int) : List Nat → Option Int
  | [] => some r
  | b :: rest =>
    if 48 ≤ b ∧ b ≤ 55 then
      match checkedMul r 8 with
      | none => none
      | some x =>
        match checkedAdd x ((b : Int) - 48) with
        | none => none
        | some y => octLoop y rest
    else if b = 95 then octLoop r rest
    else none

/-- `Value::try_parse_octal` from `value.rs`. -/
def tryParseOctal (negative : Bool) (bytes : List Nat) : Option Value :=
  if bytes = [] then none
  else
    match octLoop 0 bytes with
    | none => none
    | some r =>
      if negative then
        match checkedNeg r with
        | none => none
        | some r2 => some (.integer r2)
      else some (.integer r)

/-- Accumulation loop of `Value::try_parse_binary`. -/
def binLoop (r : Int) : List Nat → Option Int
  | [] => some r
  | b :: rest =>
    if b = 48 ∨ b = 49 then
      match checkedMul r 2 with
      | none => none
      | some x =>
        match checkedAdd x ((b : Int) - 48) with
        | none => none
        | some y => binLoop y rest
    else if b = 95 then binLoop r rest
    else none

/-- `Value::try_parse_binary` from `value.rs`. -/
def tryParseBinary (negative : Bool) (bytes : List Nat) : Option Value :=
  if bytes = [] then none
  else
    match binLoop 0 bytes with
    | none => none
    | some r =>
      if negative then
        match checkedNeg r with
        | none => none
        | some r2 => some (.integer r2)
      else some (.integer r)

/-- Strip one leading `+`/`-` sign, as the platform float parser does. -/
def stripOneSign : List Nat → List Nat
  | [] => []
  | b :: rest => if b = 43 ∨ b = 45 then rest else b :: rest

/-- ASCII lower-casing of one byte. -/
def asciiToLower (b : Nat) : Nat :=
  if 65 ≤ b ∧ b ≤ 90 then b + 32 else b

/-- Split a byte string at the first occurrence of byte `t`:
`(prefix, some suffix)` when found, `(whole, none)` otherwise. -/
def splitAtByte (t : Nat) : List Nat → List Nat × Option (List Nat)
  | [] => ([], none)
  | b :: rest =>
    if b = t then ([], some rest)
    else
      let p := splitAtByte t rest
      (b :: p.1, p.2)

/-- Split at the first `e`/`E`, for the exponent of a float literal. -/
def splitAtExpByte : List Nat → List Nat × Option (List Nat)
  | [] => ([], none)
  | b :: rest =>
    if b = 101 ∨ b = 69 then ([], some rest)
    else
      let p := splitAtExpByte rest
      (b :: p.1, p.2)

/-- All bytes are ASCII decimal digits. -/
def digitsOnly (l : List Nat) : Bool := l.all isAsciiDigit

/-- Mantissa syntax of the platform float parser: digits with at most one
dot and at least one digit overall. -/
def mantissaOk (l : List Nat) : Bool :=
  match splitAtByte 46 l with
  | (intPart, none) => !intPart.isEmpty && digitsOnly intPart
  | (intPart, some fracPart) =>
    digitsOnly intPart && digitsOnly fracPart &&
      (!intPart.isEmpty || !fracPart.isEmpty)

/-- Exponent syntax of the platform float parser: optional sign then at
least one digit. -/
def expOk (l : List Nat) : Bool :=
  !(stripOneSign l).isEmpty && digitsOnly (stripOneSign l)

/-- Modelled from the spec: the classification in `value.rs` delegates float
decoding to the platform's IEEE-754 decimal parser (`f64::from_str`), which
is not part of this repository.  This models the set of byte strings that
parser accepts: optional sign, then `inf`/`infinity`/`nan` (case-insensitive)
or a decimal mantissa with optional exponent. -/
def rustFloatAccepts (l : List Nat) : Bool :=
  if (stripOneSign l).map asciiToLower = [105, 110, 102] ∨
     (stripOneSign l).map asciiToLower = [105, 110, 102, 105, 110, 105, 116, 121] ∨
     (stripOneSign l).map asciiToLower = [110, 97, 110] then true
  else
    match splitAtExpByte (stripOneSign l) with
    | (m, none) => mantissaOk m
    | (m, some e) => mantissaOk m && expOk e

/-- `Value::try_parse_float` from `value.rs`: strip underscores, let the
platform parser decode, negate if a sign was stripped by the caller. -/
def tryParseFloat (negative : Bool) (bytes : List Nat) : Option Value :=
  if rustFloatAccepts (bytes.filter (fun b => b != 95)) then
    some (.float negative (bytes.filter (fun b => b != 95)))
  else none

/-- `Value::parse_digits` from `value.rs` (checked decimal accumulation,
`None` on empty input). -/
def parseDigits (bytes : List Nat) : Option Int :=
  if bytes = [] then none else decLoop 0 bytes

/-- `Value::parse_float_simple` from `value.rs`: underscore-strip then
platform decode; the accepted literal stands for the IEEE value. -/
def parseFloatSimple (bytes : List Nat) : Option (List Nat) :=
  let s := bytes.filter (fun b => b != 95)
  if rustFloatAccepts s then some s else none

/-- `Value::try_parse_rational` from `value.rs`. -/
def tryParseRational (bytes : List Nat) : Option Value :=
  let withoutR := bytes.dropLast
  match splitAtByte 47 withoutR with
  | (_, none) => none
  | (numBytes, some denomBytes) =>
    let sgn := if numBytes.head? = some 45 then (true, numBytes.tail) else (false, numBytes)
    match parseDigits sgn.2 with
    | none => none
    | some n =>
      let numerator := if sgn.1 then -n else n
      match parseDigits denomBytes with
      | none => none
      | some d => if d = 0 then none else some (.rational numerator d)

/-- Position of the `real`/`imag` split in `Value::try_parse_complex`: the
rightmost sign at a positive index not preceded by `e`/`E`. -/
def cmplxSplitPos (l : List Nat) : Option Nat :=
  (List.range l.length).reverse.find? (fun i =>
    decide (0 < i) &&
    (decide (l.getD i 0 = 43) || decide (l.getD i 0 = 45)) &&
    !(decide (l.getD (i - 1) 0 = 101) || decide (l.getD (i - 1) 0 = 69)))

/-- `Value::try_parse_complex` from `value.rs`.  The pure-imaginary case has
real part `0.0`, represented by the literal `"0"`. -/
def tryParseComplex (bytes : List Nat) : Option Value :=
  let withoutI := bytes.dropLast
  if withoutI = [] then none
  else
    match cmplxSplitPos withoutI with
    | some pos =>
      match parseFloatSimple (withoutI.take pos) with
      | none => none
      | some re =>
        match parseFloatSimple (withoutI.drop pos) with
        | none => none
        | some im => some (.complex re im)
    | none =>
      match parseFloatSimple withoutI with
      | none => none
      | some im => some (.complex [48] im)

/-- Lines 149-155 of `value.rs` without the base-prefix check: float when a
dot or exponent letter occurs, decimal integer otherwise. -/
def parseNoPrefix (negative : Bool) (rest : List Nat) : Option Value :=
  if 46 ∈ rest ∨ 101 ∈ rest ∨ 69 ∈ rest then tryParseFloat negative rest
  else tryParseDecimal negative rest

/-- Lines 134-155 of `Value::try_parse_number`: the part after the sign has
been stripped — empty check, then `rest.len() >= 2 && rest[0] == b'0'` with
the `0x`/`0o`/`0b`/`0d` base-prefix dispatch on `rest[1]`, then
float-or-decimal dispatch. -/
def parseAfterSign (negative : Bool) (rest : List Nat) : Option Value :=
  if rest = [] then none
  else if 2 ≤ rest.length ∧ rest.getD 0 0 = 48 ∧
      (rest.getD 1 0 = 120 ∨ rest.getD 1 0 = 88) then
    tryParseHex negative (rest.drop 2)
  else if 2 ≤ rest.length ∧ rest.getD 0 0 = 48 ∧
      (rest.getD 1 0 = 111 ∨ rest.getD 1 0 = 79) then
    tryParseOctal negative (rest.drop 2)
  else if 2 ≤ rest.length ∧ rest.getD 0 0 = 48 ∧
      (rest.getD 1 0 = 98 ∨ rest.getD 1 0 = 66) then
    tryParseBinary negative (rest.drop 2)
  else if 2 ≤ rest.length ∧ rest.getD 0 0 = 48 ∧
      (rest.getD 1 0 = 100 ∨ rest.getD 1 0 = 68) then
    tryParseDecimal negative (rest.drop 2)
  else parseNoPrefix negative rest

/-- `Value::try_parse_number` from `value.rs`: complex when the last byte is
`i`, rational when it is `r` with a `/` inside, otherwise strip one leading
`-` and continue with `parseAfterSign`. -/
def tryParseNumber (bytes : List Nat) : Option Value :=
  if bytes = [] then none
  else if bytes.getLast? = some 105 then tryParseComplex bytes
  else if bytes.getLast? = some 114 ∧ 47 ∈ bytes then tryParseRational bytes
  else if bytes.head? = some 45 then parseAfterSign true bytes.tail
  else parseAfterSign false bytes

/-- `Value::parse` from `value.rs`: empty and keyword checks
(`null`/`nil`/`~`, `true`/`false`), then the numeric recognizer, with
`String` as the fallback. -/
def Value.parse (bytes : List Nat) : Value :=
  if bytes = [] then .string bytes
  else if bytes = [110, 117, 108, 108] ∨ bytes = [110, 105, 108] ∨ bytes = [126] then .nil
  else if bytes = [116, 114, 117, 101] then .bool true
  else if bytes = [102, 97, 108, 115, 101] then .bool false
  else
    match tryParseNumber bytes with
    | some v => v
    | none => .string bytes

/-- Variant names shared by the event enumerations `Event<'a>` (`event.rs`)
and `StreamingEvent` (`streaming.rs`): both enums have exactly these
twenty-seven variants. -/
inductive EventKind where
  | elementStart
  | elementEnd
  | embeddedStart
  | embeddedEnd
  | attributeKey
  | arrayStart
  | arrayEnd
  | nilValue
  | boolValue
  | integerValue
  | floatValue
  | rationalValue
  | complexValue
  | stringValue
  | quotedStringValue
  | text
  | rawContent
  | comment
  | directiveStart
  | directiveEnd
  | inlineDirective
  | interpolation
  | idReference
  | attributeMerge
  | freeformStart
  | freeformEnd
  | error
deriving DecidableEq

/-- Source variant name of each event kind, as spelled in `event.rs` and
`streaming.rs`. -/
def eventKindName : EventKind → String
  | .elementStart => "ElementStart"
  | .elementEnd => "ElementEnd"
  | .embeddedStart => "EmbeddedStart"
  | .embeddedEnd => "EmbeddedEnd"
  | .attributeKey => "Attribute"
  | .arrayStart => "ArrayStart"
  | .arrayEnd => "ArrayEnd"
  | .nilValue => "NilValue"
  | .boolValue => "BoolValue"
  | .integerValue => "IntegerValue"
  | .floatValue => "FloatValue"
  | .rationalValue => "RationalValue"
  | .complexValue => "ComplexValue"
  | .stringValue => "StringValue"
  | .quotedStringValue => "QuotedStringValue"
  | .text => "Text"
  | .rawContent => "RawContent"
  | .comment => "Comment"
  | .directiveStart => "DirectiveStart"
  | .directiveEnd => "DirectiveEnd"
  | .inlineDirective => "InlineDirective"
  | .interpolation => "Interpolation"
  | .idReference => "IdReference"
  | .attributeMerge => "AttributeMerge"
  | .freeformStart => "FreeformStart"
  | .freeformEnd => "FreeformEnd"
  | .error => "Error"

/-- The enum `ParseErrorCode` from `streaming.rs`, with exactly its thirteen
variants. -/
inductive ParseErrorCode where
  | unclosed
  | unclosedString
  | unclosedQuote
  | unclosedArray
  | unclosedBracket
  | unclosedComment
  | unclosedDirective
  | unclosedFreeform
  | incompleteDirective
  | expectedAttrKey
  | expectedClassName
  | unexpectedAfterValue
  | noTabs
deriving DecidableEq

/-- Source variant name of each parse error code. -/
def codeName : ParseErrorCode → String
  | .unclosed => "Unclosed"
  | .unclosedString => "UnclosedString"
  | .unclosedQuote => "UnclosedQuote"
  | .unclosedArray => "UnclosedArray"
  | .unclosedBracket => "UnclosedBracket"
  | .unclosedComment => "UnclosedComment"
  | .unclosedDirective => "UnclosedDirective"
  | .unclosedFreeform => "UnclosedFreeform"
  | .incompleteDirective => "IncompleteDirective"
  | .expectedAttrKey => "ExpectedAttrKey"
  | .expectedClassName => "ExpectedClassName"
  | .unexpectedAfterValue => "UnexpectedAfterValue"
  | .noTabs => "NoTabs"

/-- `ParseErrorCode::message` from `streaming.rs`. -/
def ParseErrorCode.message : ParseErrorCode → String
  | .unclosed => "unclosed"
  | .unclosedString => "unclosed string"
  | .unclosedQuote => "unclosed quote"
  | .unclosedArray => "unclosed array"
  | .unclosedBracket => "unclosed bracket"
  | .unclosedComment => "unclosed comment"
  | .unclosedDirective => "unclosed directive"
  | .unclosedFreeform => "unclosed freeform"
  | .incompleteDirective => "incomplete directive"
  | .expectedAttrKey => "expected attr key"
  | .expectedClassName => "expected class name"
  | .unexpectedAfterValue => "unexpected after value"
  | .noTabs => "no tabs"

/-- The thirteen parse error codes, in declaration order. -/
def ParseErrorCode.all : List ParseErrorCode :=
  [.unclosed, .unclosedString, .unclosedQuote, .unclosedArray, .unclosedBracket,
   .unclosedComment, .unclosedDirective, .unclosedFreeform, .incompleteDirective,
   .expectedAttrKey, .expectedClassName, .unexpectedAfterValue, .noTabs]

/-- The struct `Chunk` from `streaming.rs`: owned bytes plus the stream
offset (`u64`) at which the chunk starts. -/
structure Chunk where
  data : List Nat
  streamOffset : Nat
deriving DecidableEq

/-- Rust slice indexing `&data[start..end]` used by `Chunk::slice`: in Rust
this panics when `start > end` or `end > len`; the panic is modelled as
`Except.error ()`. -/
def Chunk.slice (c : Chunk) (start stop : Nat) : Except Unit (List Nat) :=
  if start ≤ stop ∧ stop ≤ c.data.length then
    .ok ((c.data.drop start).take (stop - start))
  else .error ()

/-- The handle struct `ChunkSlice` from `streaming.rs`
(`chunk_idx`, `start`, `end`, all machine integers). -/
structure ChunkSlice where
  chunkIdx : Nat
  sliceStart : Nat
  sliceEnd : Nat
deriving DecidableEq

/-- The struct `ChunkArena` from `streaming.rs`. -/
structure ChunkArena where
  chunks : List Chunk
  totalBytes : Nat
  minReferenced : Nat
deriving DecidableEq

/-- `ChunkArena::new`. -/
def ChunkArena.new : ChunkArena := ⟨[], 0, 0⟩

/-- `ChunkArena::push`: the returned index is `chunks.len() as u32` (hence
the `% 2^32`), the recorded offset is the previous `total_bytes`, and
`total_bytes` grows by the chunk length (`u64` arithmetic, hence `% 2^64`). -/
def ChunkArena.push (a : ChunkArena) (data : List Nat) : ChunkArena × Nat :=
  ({ chunks := a.chunks ++ [⟨data, a.totalBytes⟩],
     totalBytes := (a.totalBytes + data.length) % 2 ^ 64,
     minReferenced := a.minReferenced },
   a.chunks.length % 2 ^ 32)

/-- `ChunkArena::resolve`: `None` when `chunk_idx` is out of range
(`Vec::get` fails), otherwise the result of `Chunk::slice` — which panics
(`Except.error`) when the byte range is invalid. -/
def ChunkArena.resolve (a : ChunkArena) (s : ChunkSlice) : Option (Except Unit (List Nat)) :=
  (a.chunks[s.chunkIdx]?).map (fun c => c.slice s.sliceStart s.sliceEnd)

/-- Repeated `ChunkArena::push`, collecting the returned chunk indices. -/
def ChunkArena.pushAll (a : ChunkArena) : List (List Nat) → ChunkArena × List Nat
  | [] => (a, [])
  | d :: ds =>
    let p := a.push d
    let rest := p.1.pushAll ds
    (rest.1, p.2 :: rest.2)

/-- The struct `EventRing` from `streaming.rs`.  The ring never inspects the
events it stores, so the payload type is a parameter; the crate instantiates
it with `StreamingEvent`. -/
structure EventRing (α : Type) where
  events : List (Option α)
  readPos : Nat
  writePos : Nat
  count : Nat
  capacity : Nat
  mask : Nat

/-- Doubling loop implementing `usize::next_power_of_two`; `fuel` bounds the
number of doublings (fuel `n` always suffices since `n < 2 ^ n`). -/
def nextPow2Go (n : Nat) : Nat → Nat → Nat
  | 0, acc => acc
  | fuel + 1, acc => if n ≤ acc then acc else nextPow2Go n fuel (2 * acc)

/-- Rust `usize::next_power_of_two`: the least power of two that is `≥ n`
(and `1` for `n = 0`). -/
def nextPowerOfTwo (n : Nat) : Nat := nextPow2Go n n 1

/-- `EventRing::new`: capacity is `min_capacity.max(2).next_power_of_two()`,
the storage is filled with `None`, and `mask = capacity - 1`. -/
def EventRing.new {α : Type} (minCapacity : Nat) : EventRing α :=
  let capacity := nextPowerOfTwo (max minCapacity 2)
  { events := List.replicate capacity none,
    readPos := 0, writePos := 0, count := 0,
    capacity := capacity, mask := capacity - 1 }

/-- `EventRing::try_push`: reject (returning the event) when full, else
store at `write_pos`, advance `write_pos` by the bitmask, bump `count`.
The second component is `some e` exactly for Rust's `Err(event)`. -/
def EventRing.tryPush {α : Type} (r : EventRing α) (e : α) : EventRing α × Option α :=
  if r.count = r.capacity then (r, some e)
  else
    ({ events := r.events.set r.writePos (some e),
       readPos := r.readPos,
       writePos := (r.writePos + 1) &&& r.mask,
       count := r.count + 1,
       capacity := r.capacity, mask := r.mask }, none)

/-- `EventRing::pop`: `None` when empty, else `take()` the slot at
`read_pos` and advance `read_pos` by the bitmask. -/
def EventRing.pop {α : Type} (r : EventRing α) : Option α × EventRing α :=
  if r.count = 0 then (none, r)
  else
    (r.events.getD r.readPos none,
     { events := r.events.set r.readPos none,
       readPos := (r.readPos + 1) &&& r.mask,
       writePos := r.writePos,
       count := r.count - 1,
       capacity := r.capacity, mask := r.mask })

/-- `EventRing::peek`. -/
def EventRing.peek {α : Type} (r : EventRing α) : Option α :=
  if r.count = 0 then none else r.events.getD r.readPos none

/-- `EventRing::iter`: the available events in read order. -/
def EventRing.iterList {α : Type} (r : EventRing α) : List α :=
  (List.range r.count).filterMap (fun i => r.events.getD ((r.readPos + i) &&& r.mask) none)

/-- `EventRing::clear`: null out the occupied window, reset the positions. -/
def EventRing.clear {α : Type} (r : EventRing α) : EventRing α :=
  { events := (List.range r.count).foldl
      (fun es i => es.set ((r.readPos + i) &&& r.mask) none) r.events,
    readPos := 0, writePos := 0, count := 0,
    capacity := r.capacity, mask := r.mask }

/-- The structural invariant of `EventRing` justifying its unchecked
indexing: positions stay below the capacity, the count is bounded by it, the
capacity is a power of two with `mask = capacity - 1`, and the storage
vector has exactly `capacity` slots. -/
def EventRing.Inv {α : Type} (r : EventRing α) : Prop :=
  (∃ k, r.capacity = 2 ^ k) ∧
  r.mask = r.capacity - 1 ∧
  r.readPos < r.capacity ∧
  r.writePos < r.capacity ∧
  r.count ≤ r.capacity ∧
  r.events.length = r.capacity

/-- One client operation on the event queue. -/
inductive RingOp (α : Type) where
  | push (e : α)
  | pop

/-- One step of the abstract bounded FIFO queue: `push` appends at the back
unless the queue holds `cap` elements (then it rejects, returning the
event); `pop` removes the front, `none` when empty. -/
def specStep {α : Type} (cap : Nat) (q : List α) : RingOp α → List α × Option α
  | .push e => if q.length = cap then (q, some e) else (q ++ [e], none)
  | .pop => (q.tail, q.head?)

/-- Run a sequence of operations on the abstract bounded queue, collecting
each operation's output (`pop`'s element, `push`'s rejected event). -/
def runSpec {α : Type} (cap : Nat) : List α → List (RingOp α) → List α × List (Option α)
  | q, [] => (q, [])
  | q, op :: ops =>
    let s := specStep cap q op
    let rest := runSpec cap s.1 ops
    (rest.1, s.2 :: rest.2)

/-- One step of the concrete ring: `push` via `try_push`, `pop` via `pop`. -/
def ringStep {α : Type} (r : EventRing α) : RingOp α → EventRing α × Option α
  | .push e => r.tryPush e
  | .pop =>
    let p := r.pop
    (p.2, p.1)

/-- Run a sequence of operations on the concrete ring, collecting each
operation's output. -/
def runRing {α : Type} : EventRing α → List (RingOp α) → EventRing α × List (Option α)
  | r, [] => (r, [])
  | r, op :: ops =>
    let s := ringStep r op
    let rest := runRing s.1 ops
    (rest.1, s.2 :: rest.2)

/-- Abstraction of the ring's occupied window: the `count` slots starting at
`read_pos`, in read order. -/
def EventRing.absList {α : Type} (r : EventRing α) : List (Option α) :=
  (List.range r.count).map (fun i => r.events.getD ((r.readPos + i) &&& r.mask) none)

/-- Simulation relation for the FIFO refinement: the invariant, the
producer-position law, and agreement of the occupied window with the
abstract queue. -/
def EventRing.Rel {α : Type} (r : EventRing α) (q : List α) : Prop :=
  r.Inv ∧ r.writePos = (r.readPos + r.count) % r.capacity ∧ r.absList = q.map some

/-- Mathematical value of a digit-and-underscore byte string: decimal digits
accumulate, every other byte is skipped. -/
def pureDec (a : Nat) : List Nat → Nat
  | [] => a
  | b :: l => if isAsciiDigit b then pureDec (10 * a + (b - 48)) l else pureDec a l

/-- ASCII decimal digit, as a proposition. -/
def DigitByte (b : Nat) : Prop := 48 ≤ b ∧ b ≤ 57

instance (b : Nat) : Decidable (DigitByte b) := by unfold DigitByte; infer_instance

/-- Modelled from the spec: byte-level shape shared by all lexemes of the
`YYYY-MM[-DD]` date grammar (digits and `-` only, digit first, at least one
`-`).  Every date lexeme satisfies it. -/
def DateLike (l : List Nat) : Prop :=
  (∀ b ∈ l, DigitByte b ∨ b = 45) ∧ 45 ∈ l ∧ DigitByte (l.headD 0)

/-- Modelled from the spec: byte-level shape shared by all lexemes of the
`HH:MM[:SS[.frac]]` time grammar and of the `date 'T' time [Z | ±HH:MM]`
date-time grammar (digits plus `- : . T Z +`, two leading digits, at least
one `:`).  Every time and every date-time lexeme satisfies it. -/
def TimeLike (l : List Nat) : Prop :=
  (∀ b ∈ l, DigitByte b ∨ b = 45 ∨ b = 58 ∨ b = 46 ∨ b = 84 ∨ b = 90 ∨ b = 43) ∧
  58 ∈ l ∧ DigitByte (l.headD 0) ∧ DigitByte (l.getD 1 0)

/-- Modelled from the spec: byte-level shape shared by all lexemes of the
ISO duration grammar `P[nY][nM][nW][nD][T[nH][nM][nS]]` (a leading `P`, then
digits and designator letters).  Every ISO duration lexeme satisfies it. -/
def IsoDurationLike (l : List Nat) : Prop :=
  l ≠ [] ∧ l.headD 0 = 80 ∧
  (∀ b ∈ l, DigitByte b ∨ b = 80 ∨ b = 89 ∨ b = 77 ∨ b = 87 ∨ b = 68 ∨
    b = 84 ∨ b = 72 ∨ b = 83)

/-- Modelled from the spec: the shorthand duration grammar — a non-empty
digit run followed by a unit among `s m h d w mo y`. -/
def ShorthandDuration (l : List Nat) : Prop :=
  ∃ ds u, l = ds ++ u ∧ ds ≠ [] ∧ (∀ b ∈ ds, DigitByte b) ∧
    u ∈ [[115], [109], [104], [100], [119], [109, 111], [121]]

/-- Modelled from the spec: the relative-time grammar — a leading `+` or `-`
followed by a duration. -/
def RelativeTimeLike (l : List Nat) : Prop :=
  ∃ s d, (s = 43 ∨ s = 45) ∧ l = s :: d ∧
    (IsoDurationLike d ∨ ShorthandDuration d)

/-- Expected chunk list after pushing `datas` when the running total starts
at `t`: each chunk records the total length of everything before it. -/
def offsetChunks (t : Nat) : List (List Nat) → List Chunk
  | [] => []
  | d :: ds => ⟨d, t⟩ :: offsetChunks (t + d.length) ds

/-! ### General list and arithmetic lemmas -/

theorem getD_set_self {α : Type} : ∀ (l : List α) (i : Nat) (v d : α),
    i < l.length → (l.set i v).getD i d = v
  | [], i, _, _, h => absurd h (by simp)
  | _ :: _, 0, _, _, _ => rfl
  | _ :: t, i + 1, v, d, h => by
    simpa using getD_set_self t i v d (by simpa using h)

theorem getD_set_ne {α : Type} : ∀ (l : List α) (i j : Nat) (v d : α),
    i ≠ j → (l.set i v).getD j d = l.getD j d
  | [], _, _, _, _, _ => rfl
  | _ :: _, 0, 0, _, _, h => absurd rfl h
  | _ :: _, 0, _ + 1, _, _, _ => by simp
  | _ :: _, _ + 1, 0, _, _, _ => by simp
  | _ :: t, i + 1, j + 1, v, d, h => by
    simpa using getD_set_ne t i j v d (by omega)

theorem addMod_inj (C a : Nat) {i j : Nat} (hi : i < C) (hj : j < C)
    (h : (a + i) % C = (a + j) % C) : i = j := by
  have h2 : i % C = j % C := Nat.ModEq.add_left_cancel' a h
  rwa [Nat.mod_eq_of_lt hi, Nat.mod_eq_of_lt hj] at h2

/-! ### `next_power_of_two` -/

theorem nextPow2Go_pow2 (n : Nat) :
    ∀ (fuel acc : Nat), (∃ j, acc = 2 ^ j) → ∃ k, nextPow2Go n fuel acc = 2 ^ k := by
  intro fuel
  induction fuel with
  | zero => intro acc h; exact h
  | succ f ih =>
    intro acc h
    unfold nextPow2Go
    split
    · exact h
    · obtain ⟨j, rfl⟩ := h
      exact ih _ ⟨j + 1, by rw [pow_succ, Nat.mul_comm]⟩

theorem nextPow2Go_ge (n : Nat) :
    ∀ (fuel acc : Nat), n ≤ acc * 2 ^ fuel → n ≤ nextPow2Go n fuel acc := by
  intro fuel
  induction fuel with
  | zero => intro acc h; simpa [nextPow2Go] using h
  | succ f ih =>
    intro acc h
    unfold nextPow2Go
    split
    · assumption
    · refine ih (2 * acc) ?_
      calc n ≤ acc * 2 ^ (f + 1) := h
        _ = 2 * acc * 2 ^ f := by ring

theorem nextPow2Go_le (n : Nat) :
    ∀ (fuel acc j m : Nat), acc = 2 ^ j → n ≤ 2 ^ m → 2 ^ j ≤ 2 ^ m →
      nextPow2Go n fuel acc ≤ 2 ^ m := by
  intro fuel
  induction fuel with
  | zero =>
    intro acc j m hacc _ hjm
    simpa [nextPow2Go, hacc] using hjm
  | succ f ih =>
    intro acc j m hacc hn hjm
    unfold nextPow2Go
    split
    · exact hacc ▸ hjm
    · rename_i hgt
      have hacc_lt : 2 ^ j < 2 ^ m := by
        have : acc < n := by omega
        omega
      have hjlt : j < m := by
        by_contra hc
        have : 2 ^ m ≤ 2 ^ j := Nat.pow_le_pow_right (by omega) (by omega)
        omega
      exact ih (2 * acc) (j + 1) m (by rw [hacc, pow_succ, Nat.mul_comm])
        hn (Nat.pow_le_pow_right (by omega) (by omega))

theorem nextPowerOfTwo_spec (n : Nat) :
    (∃ k, nextPowerOfTwo n = 2 ^ k) ∧ n ≤ nextPowerOfTwo n ∧
      (∀ m, n ≤ 2 ^ m → nextPowerOfTwo n ≤ 2 ^ m) := by
  refine ⟨nextPow2Go_pow2 n n 1 ⟨0, rfl⟩, ?_, ?_⟩
  · exact nextPow2Go_ge n n 1 (by simpa using (Nat.lt_two_pow n).le)
  · intro m hm
    exact nextPow2Go_le n n 1 0 m rfl hm (Nat.one_le_two_pow)

/-! ### Event-ring invariant lemmas -/

theorem capacity_pos {α : Type} {r : EventRing α} (h : r.Inv) : 0 < r.capacity := by
  obtain ⟨⟨k, hk⟩, _⟩ := h
  rw [hk]
  positivity

theorem maskMod {α : Type} {r : EventRing α} (h : r.Inv) (x : Nat) :
    x &&& r.mask = x % r.capacity := by
  obtain ⟨⟨k, hk⟩, hmask, _⟩ := h
  rw [hmask, hk]
  exact Nat.and_pow_two_sub_one_eq_mod x k

theorem inv_new (α : Type) (c : Nat) : (EventRing.new c : EventRing α).Inv := by
  obtain ⟨hpow, hge, _⟩ := nextPowerOfTwo_spec (max c 2)
  have hpos : 0 < nextPowerOfTwo (max c 2) := by omega
  refine ⟨by simpa [EventRing.new] using hpow, by simp [EventRing.new], ?_, ?_, ?_, ?_⟩ <;>
    simp [EventRing.new] <;> omega

theorem inv_tryPush {α : Type} {r : EventRing α} (h : r.Inv) (e : α) :
    (r.tryPush e).1.Inv := by
  by_cases hful : r.count = r.capacity
  · simpa [EventRing.tryPush, hful] using h
  · have hmm := maskMod h (r.writePos + 1)
    have hpos := capacity_pos h
    obtain ⟨hpow, hmask, hr, hw, hc, hlen⟩ := h
    refine ⟨?_, ?_, ?_, ?_, ?_, ?_⟩ <;>
      simp only [EventRing.tryPush, hful, if_false, ite_false]
    · exact hpow
    · exact hmask
    · exact hr
    · rw [hmm]; exact Nat.mod_lt _ hpos
    · omega
    · simpa using hlen

theorem inv_pop {α : Type} {r : EventRing α} (h : r.Inv) : r.pop.2.Inv := by
  by_cases hemp : r.count = 0
  · simpa [EventRing.pop, hemp] using h
  · have hmm := maskMod h (r.readPos + 1)
    have hpos := capacity_pos h
    obtain ⟨hpow, hmask, hr, hw, hc, hlen⟩ := h
    refine ⟨?_, ?_, ?_, ?_, ?_, ?_⟩ <;>
      simp only [EventRing.pop, hemp, if_false, ite_false]
    · exact hpow
    · exact hmask
    · rw [hmm]; exact Nat.mod_lt _ hpos
    · exact hw
    · omega
    · simpa using hlen

theorem length_foldl_set {α : Type} (f : Nat → Nat) :
    ∀ (is : List Nat) (es : List (Option α)),
      (is.foldl (fun es i => es.set (f i) none) es).length = es.length := by
  intro is
  induction is with
  | nil => intro es; rfl
  | cons i t ih =>
    intro es
    calc ((i :: t).foldl (fun es i => es.set (f i) none) es).length
        = (t.foldl (fun es i => es.set (f i) none) (es.set (f i) none)).length := by
          simp [List.foldl_cons]
      _ = (es.set (f i) none).length := ih _
      _ = es.length := by simp

theorem inv_clear {α : Type} {r : EventRing α} (h : r.Inv) : r.clear.Inv := by
  have hpos := capacity_pos h
  obtain ⟨hpow, hmask, hr, hw, hc, hlen⟩ := h
  refine ⟨?_, ?_, ?_, ?_, ?_, ?_⟩ <;> simp only [EventRing.clear]
  · exact hpow
  · exact hmask
  · exact hpos
  · exact hpos
  · omega
  · simpa [length_foldl_set] using hlen

/-! ### FIFO refinement lemmas -/

theorem absList_length {α : Type} (r : EventRing α) : r.absList.length = r.count := by
  simp [EventRing.absList]

theorem capacity_tryPush {α : Type} (r : EventRing α) (e : α) :
    (r.tryPush e).1.capacity = r.capacity := by
  by_cases h : r.count = r.capacity <;> simp [EventRing.tryPush, h]

theorem capacity_pop {α : Type} (r : EventRing α) : r.pop.2.capacity = r.capacity := by
  by_cases h : r.count = 0 <;> simp [EventRing.pop, h]

theorem rel_new (α : Type) (c : Nat) : (EventRing.new c : EventRing α).Rel [] := by
  refine ⟨inv_new α c, ?_, ?_⟩
  · simp [EventRing.new]
  · simp [EventRing.absList, EventRing.new]

theorem rel_tryPush {α : Type} {r : EventRing α} {q : List α} (h : r.Rel q) (e : α) :
    (r.tryPush e).2 = (if q.length = r.capacity then some e else none) ∧
    (r.tryPush e).1.Rel (if q.length = r.capacity then q else q ++ [e]) := by
  obtain ⟨hinv, hwp, habs⟩ := h
  have hlenq : q.length = r.count := by
    have hl := absList_length r
    rw [habs] at hl
    simpa using hl
  by_cases hful : r.count = r.capacity
  · have hq : q.length = r.capacity := by omega
    rw [if_pos hq, if_pos hq]
    constructor
    · simp [EventRing.tryPush, hful]
    · simpa [EventRing.tryPush, hful] using ⟨hinv, hwp, habs⟩
  · have hq : ¬ q.length = r.capacity := by omega
    have hcnt : r.count < r.capacity := lt_of_le_of_ne hinv.2.2.2.2.1 hful
    have hCpos := capacity_pos hinv
    have hw : r.writePos < r.events.length := by
      rw [hinv.2.2.2.2.2]; exact hinv.2.2.2.1
    rw [if_neg hq, if_neg hq]
    refine ⟨by simp [EventRing.tryPush, hful], inv_tryPush hinv e, ?_, ?_⟩
    · -- producer-position law for the pushed ring
      simp only [EventRing.tryPush, hful, ite_false, if_false]
      rw [maskMod hinv, hwp, Nat.mod_add_mod]
      have h1 : r.readPos + r.count + 1 = r.readPos + (r.count + 1) := by omega
      rw [h1]
    · -- the occupied window grows by the pushed event at the back
      unfold EventRing.absList
      simp only [EventRing.tryPush, hful, ite_false, if_false]
      rw [List.range_succ, List.map_append, List.map_cons, List.map_nil]
      rw [List.map_append]
      congr 1
      · rw [← habs]
        unfold EventRing.absList
        apply List.map_congr_left
        intro i hi
        have hi' : i < r.count := List.mem_range.1 hi
        rw [maskMod hinv]
        apply getD_set_ne
        intro hEq
        rw [hwp] at hEq
        have : r.count = i :=
          addMod_inj r.capacity r.readPos hcnt (by omega) hEq
        omega
      · rw [maskMod hinv, ← hwp]
        rw [List.map_cons, List.map_nil]
        congr 1
        exact getD_set_self _ _ _ _ hw

theorem rel_pop {α : Type} {r : EventRing α} {q : List α} (h : r.Rel q) :
    r.pop.1 = q.head? ∧ r.pop.2.Rel q.tail := by
  obtain ⟨hinv, hwp, habs⟩ := h
  have hlenq : q.length = r.count := by
    have hl := absList_length r
    rw [habs] at hl
    simpa using hl
  by_cases hemp : r.count = 0
  · have hq : q = [] := List.eq_nil_of_length_eq_zero (by omega)
    subst hq
    exact ⟨by simp [EventRing.pop, hemp], by simpa [EventRing.pop, hemp] using ⟨hinv, hwp, habs⟩⟩
  · obtain ⟨x, q', rfl⟩ : ∃ x q', q = x :: q' := by
      cases q with
      | nil => simp at hlenq; omega
      | cons x q' => exact ⟨x, q', rfl⟩
    obtain ⟨m, hm⟩ : ∃ m, r.count = m + 1 := ⟨r.count - 1, by omega⟩
    have hCpos := capacity_pos hinv
    have hrp : r.readPos < r.capacity := hinv.2.2.1
    have hrplen : r.readPos < r.events.length := by rw [hinv.2.2.2.2.2]; exact hrp
    have hcle : r.count ≤ r.capacity := hinv.2.2.2.2.1
    -- decompose the abstract window at its head
    have habs' : r.events.getD r.readPos none = some x ∧
        (List.range m).map
          (fun i => r.events.getD ((r.readPos + (i + 1)) &&& r.mask) none) = q'.map some := by
      have h0 := habs
      unfold EventRing.absList at h0
      rw [hm, List.range_succ_eq_map, List.map_cons, List.map_map, List.map_cons] at h0
      rw [List.cons_eq_cons] at h0
      obtain ⟨h1, h2⟩ := h0
      constructor
      · rw [← h1]
        congr 1
        rw [maskMod hinv, Nat.add_zero]
        exact (Nat.mod_eq_of_lt hrp).symm
      · rw [← h2]
        apply List.map_congr_left
        intro i _
        simp [Function.comp, Nat.succ_eq_add_one]
    refine ⟨?_, ?_⟩
    · simp only [EventRing.pop, hemp, ite_false, if_false]
      simpa using habs'.1
    · refine ⟨inv_pop hinv, ?_, ?_⟩
      · -- producer-position law for the popped ring
        simp only [EventRing.pop, hemp, ite_false, if_false]
        rw [maskMod hinv, hwp, Nat.mod_add_mod, hm]
        congr 1
        omega
      · -- the occupied window loses its front element
        unfold EventRing.absList
        simp only [EventRing.pop, hemp, ite_false, if_false, List.tail_cons]
        rw [hm]
        simp only [Nat.add_sub_cancel]
        rw [← habs'.2]
        apply List.map_congr_left
        intro i hi
        have hi' : i < m := List.mem_range.1 hi
        simp only [maskMod hinv]
        rw [Nat.mod_add_mod]
        rw [getD_set_ne]
        · have h1 : r.readPos + 1 + i = r.readPos + (i + 1) := by omega
          rw [h1]
        · intro hEq
          have h0 : (r.readPos + 0) % r.capacity = (r.readPos + (1 + i)) % r.capacity := by
            rw [Nat.add_zero, Nat.mod_eq_of_lt hrp]
            rw [hEq]
            congr 1
            omega
          have := addMod_inj r.capacity r.readPos hCpos (by omega) h0
          omega

theorem rel_step {α : Type} {r : EventRing α} {q : List α} (h : r.Rel q) (op : RingOp α) :
    (ringStep r op).2 = (specStep r.capacity q op).2 ∧
    (ringStep r op).1.Rel (specStep r.capacity q op).1 := by
  cases op with
  | push e =>
    obtain ⟨hout, hrel⟩ := rel_tryPush h e
    have hs : specStep r.capacity q (.push e) =
        ((if q.length = r.capacity then q else q ++ [e]),
         (if q.length = r.capacity then some e else none)) := by
      by_cases hq : q.length = r.capacity <;> simp [specStep, hq]
    rw [show ringStep r (.push e) = r.tryPush e from rfl, hs]
    exact ⟨hout, hrel⟩
  | pop =>
    obtain ⟨hout, hrel⟩ := rel_pop h
    exact ⟨hout, hrel⟩

theorem run_refines {α : Type} :
    ∀ (ops : List (RingOp α)) (r : EventRing α) (q : List α), r.Rel q →
      (runRing r ops).2 = (runSpec r.capacity q ops).2 ∧
      (runRing r ops).1.Rel (runSpec r.capacity q ops).1 := by
  intro ops
  induction ops with
  | nil => intro r q h; exact ⟨rfl, h⟩
  | cons op t ih =>
    intro r q h
    obtain ⟨hout, hrel⟩ := rel_step h op
    have hcap : (ringStep r op).1.capacity = r.capacity := by
      cases op <;> simp [ringStep, capacity_tryPush, capacity_pop]
    obtain ⟨ht1, ht2⟩ := ih (ringStep r op).1 (specStep r.capacity q op).1 hrel
    rw [hcap] at ht1 ht2
    constructor
    · simp only [runRing, runSpec]
      rw [hout, ht1]
    · simp only [runRing, runSpec]
      exact ht2

/-! ### Chunk-arena lemmas -/

theorem pushAll_spec (datas : List (List Nat)) :
    ∀ (a : ChunkArena),
      a.chunks.length + datas.length ≤ 2 ^ 32 →
      a.totalBytes + (datas.map List.length).sum < 2 ^ 64 →
      (a.pushAll datas).2 = (List.range datas.length).map (fun i => a.chunks.length + i) ∧
      (a.pushAll datas).1.totalBytes = a.totalBytes + (datas.map List.length).sum ∧
      (a.pushAll datas).1.chunks = a.chunks ++ offsetChunks a.totalBytes datas := by
  induction datas with
  | nil => intro a _ _; simp [ChunkArena.pushAll, offsetChunks]
  | cons d ds ih =>
    intro a hcnt hbytes
    have hlen : a.chunks.length < 2 ^ 32 := by simp at hcnt; omega
    have htot : a.totalBytes + d.length < 2 ^ 64 := by simp at hbytes; omega
    have hstep : a.push d =
        ({ chunks := a.chunks ++ [⟨d, a.totalBytes⟩],
           totalBytes := a.totalBytes + d.length,
           minReferenced := a.minReferenced }, a.chunks.length) := by
      unfold ChunkArena.push
      rw [Nat.mod_eq_of_lt hlen, Nat.mod_eq_of_lt htot]
    obtain ⟨ih1, ih2, ih3⟩ := ih (a.push d).1
      (by rw [hstep]; simp at hcnt ⊢; omega)
      (by rw [hstep]; simp at hbytes ⊢; omega)
    refine ⟨?_, ?_, ?_⟩
    · show (a.push d).2 :: ((a.push d).1.pushAll ds).2 = _
      rw [ih1, hstep]
      simp only [List.length_cons, List.range_succ_eq_map, List.map_cons, List.map_map]
      rw [List.cons_eq_cons]
      refine ⟨by omega, ?_⟩
      apply List.map_congr_left
      intro i _
      simp [Function.comp]
      omega
    · show ((a.push d).1.pushAll ds).1.totalBytes = _
      rw [ih2, hstep]
      simp
      omega
    · show ((a.push d).1.pushAll ds).1.chunks = _
      rw [ih3, hstep]
      simp [offsetChunks, List.append_assoc]

theorem offsetChunks_offsets (datas : List (List Nat)) : ∀ t,
    (offsetChunks t datas).map Chunk.streamOffset =
      (List.range datas.length).map (fun i => t + ((datas.take i).map List.length).sum) := by
  induction datas with
  | nil => intro t; simp [offsetChunks]
  | cons d ds ih =>
    intro t
    simp only [offsetChunks, List.map_cons, List.length_cons, List.range_succ_eq_map,
      List.map_map]
    rw [List.cons_eq_cons]
    refine ⟨by simp, ?_⟩
    rw [ih (t + d.length)]
    apply List.map_congr_left
    intro i _
    simp [Function.comp, List.take_succ_cons]
    omega

theorem take_sum_le (datas : List (List Nat)) (i j : Nat) (h : i ≤ j) :
    ((datas.take i).map List.length).sum ≤ ((datas.take j).map List.length).sum := by
  have h1 : datas.take i = (datas.take j).take i := by
    rw [List.take_take, Nat.min_eq_left h]
  rw [h1]
  conv_rhs => rw [← List.take_append_drop i (datas.take j)]
  rw [List.map_append, List.sum_append]
  omega

theorem getD_range_map (f : Nat → Nat) (n i : Nat) (h : i < n) :
    ((List.range n).map f).getD i 0 = f i := by
  rw [List.getD_eq_getElem?_getD, List.getElem?_map, List.getElem?_range h]
  rfl

/-! ### Value-recognizer lemmas -/

theorem isAsciiDigit_iff (b : Nat) : isAsciiDigit b = true ↔ 48 ≤ b ∧ b ≤ 57 := by
  simp [isAsciiDigit]

theorem i64Min_le_of_nonneg {x : Int} (h : 0 ≤ x) : i64Min ≤ x := by
  unfold i64Min
  have h2 : (0 : Int) ≤ 2 ^ 63 := by positivity
  linarith

theorem checkedNeg_nonneg {x : Int} (h : 0 ≤ x) : checkedNeg x = some (-x) := by
  unfold checkedNeg
  rw [if_neg]
  intro hcon
  rw [hcon] at h
  unfold i64Min at h
  have h2 : (0 : Int) < 2 ^ 63 := by positivity
  linarith

theorem decLoop_none_of_bad : ∀ (l : List Nat) (r : Int),
    (∃ b ∈ l, ¬(isAsciiDigit b = true ∨ b = 95)) → decLoop r l = none := by
  intro l
  induction l with
  | nil =>
    intro r h
    obtain ⟨b, hb, _⟩ := h
    simp at hb
  | cons a t ih =>
    intro r h
    obtain ⟨b, hb, hbad⟩ := h
    unfold decLoop
    by_cases ha : isAsciiDigit a = true
    · rw [if_pos ha]
      have hbt : b ∈ t := by
        rcases List.mem_cons.1 hb with rfl | hmem
        · exact absurd (Or.inl ha) hbad
        · exact hmem
      rcases hmul : checkedMul r 10 with _ | x
      · simp [hmul]
      · simp only [hmul]
        rcases hadd : checkedAdd x ((a : Int) - 48) with _ | y
        · simp [hadd]
        · simp only [hadd]
          exact ih y ⟨b, hbt, hbad⟩
    · rw [if_neg ha]
      by_cases h95 : a = 95
      · rw [if_pos h95]
        have hbt : b ∈ t := by
          rcases List.mem_cons.1 hb with rfl | hmem
          · exact absurd (Or.inr h95) hbad
          · exact hmem
        exact ih r ⟨b, hbt, hbad⟩
      · rw [if_neg h95]

theorem decLoop_underscores : ∀ (l : List Nat) (r : Int),
    (∀ b ∈ l, b = 95) → decLoop r l = some r := by
  intro l
  induction l with
  | nil => intro r _; rfl
  | cons a t ih =>
    intro r h
    have ha : a = 95 := h a (by simp)
    subst ha
    unfold decLoop
    rw [if_neg (by simp [isAsciiDigit]), if_pos rfl]
    exact ih r (fun b hb => h b (by simp [hb]))

theorem hexLoop_underscores : ∀ (l : List Nat) (r : Int),
    (∀ b ∈ l, b = 95) → hexLoop r l = some r := by
  intro l
  induction l with
  | nil => intro r _; rfl
  | cons a t ih =>
    intro r h
    have ha : a = 95 := h a (by simp)
    subst ha
    unfold hexLoop
    rw [if_pos rfl]
    exact ih r (fun b hb => h b (by simp [hb]))

theorem octLoop_underscores : ∀ (l : List Nat) (r : Int),
    (∀ b ∈ l, b = 95) → octLoop r l = some r := by
  intro l
  induction l with
  | nil => intro r _; rfl
  | cons a t ih =>
    intro r h
    have ha : a = 95 := h a (by simp)
    subst ha
    unfold octLoop
    rw [if_neg (by omega), if_pos rfl]
    exact ih r (fun b hb => h b (by simp [hb]))

theorem binLoop_underscores : ∀ (l : List Nat) (r : Int),
    (∀ b ∈ l, b = 95) → binLoop r l = some r := by
  intro l
  induction l with
  | nil => intro r _; rfl
  | cons a t ih =>
    intro r h
    have ha : a = 95 := h a (by simp)
    subst ha
    unfold binLoop
    rw [if_neg (by omega), if_pos rfl]
    exact ih r (fun b hb => h b (by simp [hb]))

theorem pureDec_underscores : ∀ (l : List Nat) (a : Nat),
    (∀ b ∈ l, b = 95) → pureDec a l = a := by
  intro l
  induction l with
  | nil => intro a _; rfl
  | cons b t ih =>
    intro a h
    have hb : b = 95 := h b (by simp)
    subst hb
    unfold pureDec
    rw [if_neg (by simp [isAsciiDigit])]
    exact ih a (fun b hb => h b (by simp [hb]))

theorem pureDec_mono : ∀ (l : List Nat) (a : Nat), a ≤ pureDec a l := by
  intro l
  induction l with
  | nil => intro a; exact Nat.le_refl a
  | cons b t ih =>
    intro a
    unfold pureDec
    by_cases hb : isAsciiDigit b = true
    · rw [if_pos hb]
      exact le_trans (by omega) (ih (10 * a + (b - 48)))
    · rw [if_neg hb]
      exact ih a

theorem decLoop_eq_pureDec : ∀ (l : List Nat) (a : Nat),
    (∀ b ∈ l, isAsciiDigit b = true ∨ b = 95) →
    a ≤ 2 ^ 63 - 1 →
    decLoop (a : Int) l =
      (if pureDec a l ≤ 2 ^ 63 - 1 then some ((pureDec a l : Nat) : Int) else none) := by
  intro l
  induction l with
  | nil =>
    intro a _ ha
    rw [if_pos (by simpa [pureDec] using ha)]
    rfl
  | cons b t ih =>
    intro a hall ha
    have ha0 : (0 : Int) ≤ (a : Int) := Int.natCast_nonneg a
    rcases hall b (by simp) with hb | hb
    · obtain ⟨hb1, hb2⟩ := isAsciiDigit_iff b |>.1 hb
      have hb1i : (48 : Int) ≤ (b : Int) := by exact_mod_cast hb1
      have hcast : ((10 * a + (b - 48) : Nat) : Int) = (a : Int) * 10 + ((b : Int) - 48) := by
        push_cast [hb1]
        ring
      have hpd : pureDec a (b :: t) = pureDec (10 * a + (b - 48)) t := by
        conv_lhs => rw [pureDec]
        rw [if_pos hb]
      rw [hpd]
      conv_lhs => rw [decLoop]
      rw [if_pos hb]
      by_cases hmul : (a : Int) * 10 ≤ i64Max
      · have hmulOk : checkedMul (a : Int) 10 = some ((a : Int) * 10) := by
          unfold checkedMul
          rw [if_pos ⟨i64Min_le_of_nonneg (by positivity), hmul⟩]
        simp only [hmulOk]
        by_cases hadd : (a : Int) * 10 + ((b : Int) - 48) ≤ i64Max
        · have haddOk : checkedAdd ((a : Int) * 10) ((b : Int) - 48) =
              some ((a : Int) * 10 + ((b : Int) - 48)) := by
            unfold checkedAdd
            rw [if_pos ⟨i64Min_le_of_nonneg (by linarith), hadd⟩]
          simp only [haddOk]
          have hstep : 10 * a + (b - 48) ≤ 2 ^ 63 - 1 := by
            unfold i64Max at hadd
            have h63 : ((2 ^ 63 - 1 : Nat) : Int) = 2 ^ 63 - 1 := by norm_num
            have : ((10 * a + (b - 48) : Nat) : Int) ≤ ((2 ^ 63 - 1 : Nat) : Int) := by
              rw [hcast, h63]
              linarith
            exact_mod_cast this
          rw [← hcast]
          exact ih (10 * a + (b - 48)) (fun x hx => hall x (by simp [hx])) hstep
        · have haddNone : checkedAdd ((a : Int) * 10) ((b : Int) - 48) = none := by
            unfold checkedAdd
            rw [if_neg]
            intro hcon
            exact hadd hcon.2
          simp only [haddNone]
          have hbig : 2 ^ 63 - 1 < 10 * a + (b - 48) := by
            unfold i64Max at hadd
            have h63 : ((2 ^ 63 - 1 : Nat) : Int) = 2 ^ 63 - 1 := by norm_num
            by_contra hcon
            push_neg at hcon
            have : ((10 * a + (b - 48) : Nat) : Int) ≤ ((2 ^ 63 - 1 : Nat) : Int) := by
              exact_mod_cast hcon
            rw [hcast, h63] at this
            exact hadd this
          rw [if_neg]
          intro hcon
          have hmono := pureDec_mono t (10 * a + (b - 48))
          omega
      · have hmulNone : checkedMul (a : Int) 10 = none := by
          unfold checkedMul
          rw [if_neg]
          intro hcon
          exact hmul hcon.2
        simp only [hmulNone]
        have hbig : 2 ^ 63 - 1 < 10 * a + (b - 48) := by
          unfold i64Max at hmul
          have h63 : ((2 ^ 63 - 1 : Nat) : Int) = 2 ^ 63 - 1 := by norm_num
          by_contra hcon
          push_neg at hcon
          have hc : ((10 * a + (b - 48) : Nat) : Int) ≤ ((2 ^ 63 - 1 : Nat) : Int) := by
            exact_mod_cast hcon
          rw [hcast, h63] at hc
          have : (a : Int) * 10 ≤ (a : Int) * 10 + ((b : Int) - 48) := by linarith
          exact hmul (le_trans this hc)
        rw [if_neg]
        intro hcon
        have hmono := pureDec_mono t (10 * a + (b - 48))
        omega
    · subst hb
      have hpd : pureDec a (95 :: t) = pureDec a t := by
        conv_lhs => rw [pureDec]
        rw [if_neg (by simp [isAsciiDigit])]
      rw [hpd]
      conv_lhs => rw [decLoop]
      rw [if_neg (by simp [isAsciiDigit]), if_pos rfl]
      exact ih a (fun x hx => hall x (by simp [hx])) ha

theorem tryParseDecimal_spec (negative : Bool) (l : List Nat)
    (hne : l ≠ []) (hall : ∀ b ∈ l, isAsciiDigit b = true ∨ b = 95) :
    tryParseDecimal negative l =
      (if pureDec 0 l ≤ 2 ^ 63 - 1 then
        some (.integer (if negative then -((pureDec 0 l : Nat) : Int) else ((pureDec 0 l : Nat) : Int)))
      else none) := by
  unfold tryParseDecimal
  rw [if_neg hne]
  have h0 := decLoop_eq_pureDec l 0 hall (by omega)
  rw [show ((0 : Nat) : Int) = (0 : Int) from rfl] at h0
  rw [h0]
  by_cases hb : pureDec 0 l ≤ 2 ^ 63 - 1
  · rw [if_pos hb, if_pos hb]
    cases negative with
    | false => rfl
    | true =>
      have hneg : checkedNeg ((pureDec 0 l : Nat) : Int) = some (-((pureDec 0 l : Nat) : Int)) :=
        checkedNeg_nonneg (Int.natCast_nonneg _)
      simp [hneg]
  · rw [if_neg hb, if_neg hb]

/-! ### The platform float parser rejects byte strings containing a colon -/

theorem splitAtByte_none_eq (t : Nat) : ∀ (l : List Nat),
    (splitAtByte t l).2 = none → l = (splitAtByte t l).1 := by
  intro l
  induction l with
  | nil => intro _; rfl
  | cons b rest ih =>
    intro h
    unfold splitAtByte at h ⊢
    by_cases hb : b = t
    · rw [if_pos hb] at h
      simp at h
    · rw [if_neg hb] at h ⊢
      simpa using ih h

theorem splitAtByte_some_eq (t : Nat) : ∀ (l r : List Nat),
    (splitAtByte t l).2 = some r → l = (splitAtByte t l).1 ++ t :: r := by
  intro l
  induction l with
  | nil => intro r h; simp [splitAtByte] at h
  | cons b rest ih =>
    intro r h
    unfold splitAtByte at h ⊢
    by_cases hb : b = t
    · rw [if_pos hb] at h ⊢
      simp at h ⊢
      exact ⟨hb, h⟩
    · rw [if_neg hb] at h ⊢
      simpa using ih r h

theorem splitAtExpByte_none_eq : ∀ (l : List Nat),
    (splitAtExpByte l).2 = none → l = (splitAtExpByte l).1 := by
  intro l
  induction l with
  | nil => intro _; rfl
  | cons b rest ih =>
    intro h
    unfold splitAtExpByte at h ⊢
    by_cases hb : b = 101 ∨ b = 69
    · rw [if_pos hb] at h
      simp at h
    · rw [if_neg hb] at h ⊢
      simpa using ih h

theorem splitAtExpByte_some_eq : ∀ (l r : List Nat),
    (splitAtExpByte l).2 = some r →
      ∃ c, (c = 101 ∨ c = 69) ∧ l = (splitAtExpByte l).1 ++ c :: r := by
  intro l
  induction l with
  | nil => intro r h; simp [splitAtExpByte] at h
  | cons b rest ih =>
    intro r h
    unfold splitAtExpByte at h ⊢
    by_cases hb : b = 101 ∨ b = 69
    · rw [if_pos hb] at h ⊢
      refine ⟨b, hb, ?_⟩
      simp at h ⊢
      exact h
    · rw [if_neg hb] at h ⊢
      obtain ⟨c, hc, heq⟩ := ih r h
      exact ⟨c, hc, by simpa using heq⟩

theorem digitsOnly_mem {l : List Nat} (h : digitsOnly l = true) {b : Nat} (hb : b ∈ l) :
    48 ≤ b ∧ b ≤ 57 := by
  have := List.all_eq_true.1 h b hb
  simpa [isAsciiDigit] using this

theorem mantissaOk_mem {l : List Nat} (h : mantissaOk l = true) {b : Nat} (hb : b ∈ l) :
    (48 ≤ b ∧ b ≤ 57) ∨ b = 46 := by
  unfold mantissaOk at h
  rcases hsp : splitAtByte 46 l with ⟨p, o⟩
  rw [hsp] at h
  cases o with
  | none =>
    have hl : l = p := by
      have := splitAtByte_none_eq 46 l
      rw [hsp] at this
      exact this rfl
    subst hl
    simp only [Bool.and_eq_true] at h
    exact Or.inl (digitsOnly_mem h.2 hb)
  | some frac =>
    have hl : l = p ++ 46 :: frac := by
      have := splitAtByte_some_eq 46 l frac
      rw [hsp] at this
      exact this rfl
    subst hl
    simp only [Bool.and_eq_true] at h
    rcases List.mem_append.1 hb with hp | hf
    · exact Or.inl (digitsOnly_mem h.1.1 hp)
    · rcases List.mem_cons.1 hf with rfl | hf2
      · exact Or.inr rfl
      · exact Or.inl (digitsOnly_mem h.1.2 hf2)

theorem expOk_mem {l : List Nat} (h : expOk l = true) {b : Nat} (hb : b ∈ l) :
    (48 ≤ b ∧ b ≤ 57) ∨ b = 43 ∨ b = 45 := by
  unfold expOk at h
  cases l with
  | nil => simp at hb
  | cons c t =>
    simp only [stripOneSign] at h
    by_cases hc : c = 43 ∨ c = 45
    · rw [if_pos hc] at h
      simp only [Bool.and_eq_true] at h
      rcases List.mem_cons.1 hb with rfl | ht
      · exact Or.inr hc
      · exact Or.inl (digitsOnly_mem h.2 ht)
    · rw [if_neg hc] at h
      simp only [Bool.and_eq_true] at h
      exact Or.inl (digitsOnly_mem h.2 hb)

theorem asciiToLower_58 : asciiToLower 58 = 58 := rfl

theorem rustFloatAccepts_no_colon {l : List Nat} (h : rustFloatAccepts l = true) :
    (58 : Nat) ∉ l := by
  intro hmem
  have hbody : (58 : Nat) ∈ stripOneSign l := by
    cases l with
    | nil => simp at hmem
    | cons c t =>
      simp only [stripOneSign]
      by_cases hc : c = 43 ∨ c = 45
      · rw [if_pos hc]
        rcases List.mem_cons.1 hmem with h58 | h58
        · rcases hc with rfl | rfl <;> omega
        · exact h58
      · rw [if_neg hc]
        exact hmem
  unfold rustFloatAccepts at h
  by_cases hspecial : (stripOneSign l).map asciiToLower = [105, 110, 102] ∨
      (stripOneSign l).map asciiToLower = [105, 110, 102, 105, 110, 105, 116, 121] ∨
      (stripOneSign l).map asciiToLower = [110, 97, 110]
  · have hmap : asciiToLower 58 ∈ (stripOneSign l).map asciiToLower :=
      List.mem_map_of_mem asciiToLower hbody
    rw [asciiToLower_58] at hmap
    rcases hspecial with h1 | h1 | h1 <;> rw [h1] at hmap <;> simp at hmap
  · rw [if_neg hspecial] at h
    rcases hsp : splitAtExpByte (stripOneSign l) with ⟨m, o⟩
    rw [hsp] at h
    cases o with
    | none =>
      have hl : stripOneSign l = m := by
        have := splitAtExpByte_none_eq (stripOneSign l)
        rw [hsp] at this
        exact this rfl
      rw [hl] at hbody
      rcases mantissaOk_mem h hbody with hx | hx <;> omega
    | some ex =>
      have hl : ∃ c, (c = 101 ∨ c = 69) ∧ stripOneSign l = m ++ c :: ex := by
        have := splitAtExpByte_some_eq (stripOneSign l) ex
        rw [hsp] at this
        exact this rfl
      obtain ⟨c, hc, hleq⟩ := hl
      rw [hleq] at hbody
      simp only [Bool.and_eq_true] at h
      rcases List.mem_append.1 hbody with hm | hcx
      · rcases mantissaOk_mem h.1 hm with hx | hx <;> omega
      · rcases List.mem_cons.1 hcx with rfl | hx
        · rcases hc with h1 | h1 <;> omega
        · rcases expOk_mem h.2 hx with hy | hy | hy <;> omega

/-! ### Structure lemmas for `Value.parse` -/

theorem parse_of_number (l : List Nat) (b0 : Nat) (t : List Nat) (hl : l = b0 :: t)
    (h1 : b0 ≠ 110) (h2 : b0 ≠ 116) (h3 : b0 ≠ 102) (h4 : b0 ≠ 126) :
    Value.parse l = (match tryParseNumber l with | some v => v | none => .string l) := by
  subst hl
  unfold Value.parse
  rw [if_neg (by simp), if_neg (by simp [h1, h4]), if_neg (by simp [h2]),
    if_neg (by simp [h3])]

theorem tryParseNumber_eq_afterSign (l : List Nat) (hne : l ≠ [])
    (hi : l.getLast? ≠ some 105)
    (hr : ¬(l.getLast? = some 114 ∧ 47 ∈ l)) :
    tryParseNumber l = (if l.head? = some 45 then parseAfterSign true l.tail
                        else parseAfterSign false l) := by
  unfold tryParseNumber
  rw [if_neg hne, if_neg hi, if_neg hr]

theorem parseAfterSign_none (negative : Bool) (d : List Nat)
    (hd : d ≠ [])
    (hguard : ∀ r0 r1 t2, d = r0 :: r1 :: t2 → r0 = 48 →
      (r1 ≠ 120 ∧ r1 ≠ 88 ∧ r1 ≠ 111 ∧ r1 ≠ 79 ∧ r1 ≠ 98 ∧ r1 ≠ 66 ∧
        r1 ≠ 100 ∧ r1 ≠ 68) ∨ t2 = [])
    (hflrej : (46 ∈ d ∨ 101 ∈ d ∨ 69 ∈ d) → 58 ∈ d)
    (hbad : ∃ b ∈ d, ¬(isAsciiDigit b = true ∨ b = 95)) :
    parseAfterSign negative d = none := by
  have hnopre : parseNoPrefix negative d = none := by
    by_cases hfl : 46 ∈ d ∨ 101 ∈ d ∨ 69 ∈ d
    · unfold parseNoPrefix
      rw [if_pos hfl]
      unfold tryParseFloat
      have h58 := hflrej hfl
      cases hacc : rustFloatAccepts (d.filter (fun b => b != 95)) with
      | false => rw [if_neg (by simp)]
      | true =>
        exfalso
        refine rustFloatAccepts_no_colon hacc ?_
        rw [List.mem_filter]
        exact ⟨h58, by decide⟩
    · unfold parseNoPrefix
      rw [if_neg hfl]
      unfold tryParseDecimal
      rw [if_neg hd, decLoop_none_of_bad d 0 hbad]
  unfold parseAfterSign
  rw [if_neg hd]
  rcases d with _ | ⟨d0, _ | ⟨d1, t2⟩⟩
  · exact absurd rfl hd
  · rw [if_neg (by rintro ⟨h2, _⟩; simp at h2), if_neg (by rintro ⟨h2, _⟩; simp at h2),
      if_neg (by rintro ⟨h2, _⟩; simp at h2), if_neg (by rintro ⟨h2, _⟩; simp at h2)]
    exact hnopre
  · by_cases h0 : d0 = 48
    · rcases hguard d0 d1 t2 rfl h0 with hout | hemp
      · obtain ⟨a1, a2, a3, a4, a5, a6, a7, a8⟩ := hout
        rw [if_neg (by rintro ⟨_, _, h | h⟩ <;> simp at h <;> omega),
          if_neg (by rintro ⟨_, _, h | h⟩ <;> simp at h <;> omega),
          if_neg (by rintro ⟨_, _, h | h⟩ <;> simp at h <;> omega),
          if_neg (by rintro ⟨_, _, h | h⟩ <;> simp at h <;> omega)]
        exact hnopre
      · subst hemp
        subst h0
        by_cases hx : d1 = 120 ∨ d1 = 88
        · rw [if_pos ⟨by simp, by simp, by simpa using hx⟩]
          rfl
        · rw [if_neg (by rintro ⟨_, _, h⟩; simp at h; exact hx h)]
          by_cases ho : d1 = 111 ∨ d1 = 79
          · rw [if_pos ⟨by simp, by simp, by simpa using ho⟩]
            rfl
          · rw [if_neg (by rintro ⟨_, _, h⟩; simp at h; exact ho h)]
            by_cases hb2 : d1 = 98 ∨ d1 = 66
            · rw [if_pos ⟨by simp, by simp, by simpa using hb2⟩]
              rfl
            · rw [if_neg (by rintro ⟨_, _, h⟩; simp at h; exact hb2 h)]
              by_cases hd2 : d1 = 100 ∨ d1 = 68
              · rw [if_pos ⟨by simp, by simp, by simpa using hd2⟩]
                rfl
              · rw [if_neg (by rintro ⟨_, _, h⟩; simp at h; exact hd2 h)]
                exact hnopre
    · rw [if_neg (by rintro ⟨_, h, _⟩; simp at h; exact h0 h),
        if_neg (by rintro ⟨_, h, _⟩; simp at h; exact h0 h),
        if_neg (by rintro ⟨_, h, _⟩; simp at h; exact h0 h),
        if_neg (by rintro ⟨_, h, _⟩; simp at h; exact h0 h)]
      exact hnopre

theorem parseAfterSign_decimal (negative : Bool) (d : List Nat)
    (hd : d ≠ [])
    (hall : ∀ b ∈ d, isAsciiDigit b = true ∨ b = 95) :
    parseAfterSign negative d = tryParseDecimal negative d := by
  have hnopre : parseNoPrefix negative d = tryParseDecimal negative d := by
    unfold parseNoPrefix
    rw [if_neg]
    rintro (h | h | h) <;> rcases hall _ h with hx | hx <;> simp [isAsciiDigit] at hx
  unfold parseAfterSign
  rw [if_neg hd]
  rcases d with _ | ⟨d0, _ | ⟨d1, t2⟩⟩
  · exact absurd rfl hd
  · rw [if_neg (by rintro ⟨h2, _⟩; simp at h2), if_neg (by rintro ⟨h2, _⟩; simp at h2),
      if_neg (by rintro ⟨h2, _⟩; simp at h2), if_neg (by rintro ⟨h2, _⟩; simp at h2)]
    exact hnopre
  · have h1 : isAsciiDigit d1 = true ∨ d1 = 95 := hall d1 (by simp)
    have h1' : d1 ≤ 57 ∨ d1 = 95 := by
      rcases h1 with hx | hx
      · exact Or.inl (isAsciiDigit_iff d1 |>.1 hx).2
      · exact Or.inr hx
    rw [if_neg (by rintro ⟨_, _, h | h⟩ <;> simp at h <;> omega),
      if_neg (by rintro ⟨_, _, h | h⟩ <;> simp at h <;> omega),
      if_neg (by rintro ⟨_, _, h | h⟩ <;> simp at h <;> omega),
      if_neg (by rintro ⟨_, _, h | h⟩ <;> simp at h <;> omega)]
    exact hnopre

theorem no_ir_last (l : List Nat) (h : ∀ b ∈ l, b ≠ 105 ∧ b ≠ 114) :
    l.getLast? ≠ some 105 ∧ ¬(l.getLast? = some 114 ∧ 47 ∈ l) := by
  constructor
  · intro hcon
    exact (h 105 (List.mem_of_getLast?_eq_some hcon)).1 rfl
  · rintro ⟨hcon, _⟩
    exact (h 114 (List.mem_of_getLast?_eq_some hcon)).2 rfl

theorem parse_string_pos (l : List Nat) (b0 : Nat) (t : List Nat) (hl : l = b0 :: t)
    (hkw : b0 ≠ 110 ∧ b0 ≠ 116 ∧ b0 ≠ 102 ∧ b0 ≠ 126 ∧ b0 ≠ 45)
    (hi : l.getLast? ≠ some 105)
    (hr : ¬(l.getLast? = some 114 ∧ 47 ∈ l))
    (hguard : ∀ r0 r1 t2, l = r0 :: r1 :: t2 → r0 = 48 →
      (r1 ≠ 120 ∧ r1 ≠ 88 ∧ r1 ≠ 111 ∧ r1 ≠ 79 ∧ r1 ≠ 98 ∧ r1 ≠ 66 ∧
        r1 ≠ 100 ∧ r1 ≠ 68) ∨ t2 = [])
    (hflrej : (46 ∈ l ∨ 101 ∈ l ∨ 69 ∈ l) → 58 ∈ l)
    (hbad : ∃ b ∈ l, ¬(isAsciiDigit b = true ∨ b = 95)) :
    Value.parse l = .string l := by
  have hnum : tryParseNumber l = none := by
    rw [tryParseNumber_eq_afterSign l (by simp [hl]) hi hr,
      if_neg (by subst hl; simpa using hkw.2.2.2.2)]
    exact parseAfterSign_none false l (by simp [hl]) hguard hflrej hbad
  rw [parse_of_number l b0 t hl hkw.1 hkw.2.1 hkw.2.2.1 hkw.2.2.2.1, hnum]

theorem parse_string_neg (l d : List Nat) (hl : l = 45 :: d) (hd : d ≠ [])
    (hi : l.getLast? ≠ some 105)
    (hr : ¬(l.getLast? = some 114 ∧ 47 ∈ l))
    (hguard : ∀ r0 r1 t2, d = r0 :: r1 :: t2 → r0 = 48 →
      (r1 ≠ 120 ∧ r1 ≠ 88 ∧ r1 ≠ 111 ∧ r1 ≠ 79 ∧ r1 ≠ 98 ∧ r1 ≠ 66 ∧
        r1 ≠ 100 ∧ r1 ≠ 68) ∨ t2 = [])
    (hflrej : (46 ∈ d ∨ 101 ∈ d ∨ 69 ∈ d) → 58 ∈ d)
    (hbad : ∃ b ∈ d, ¬(isAsciiDigit b = true ∨ b = 95)) :
    Value.parse l = .string l := by
  have hnum : tryParseNumber l = none := by
    rw [tryParseNumber_eq_afterSign l (by simp [hl]) hi hr, if_pos (by simp [hl])]
    have htl : l.tail = d := by simp [hl]
    rw [htl]
    exact parseAfterSign_none true d hd hguard hflrej hbad
  rw [parse_of_number l 45 d hl (by omega) (by omega) (by omega) (by omega), hnum]

theorem parse_decimal_all (body : List Nat) (hne : body ≠ [])
    (hall : ∀ b ∈ body, isAsciiDigit b = true ∨ b = 95) :
    Value.parse body =
      (if pureDec 0 body ≤ 2 ^ 63 - 1 then Value.integer ((pureDec 0 body : Nat) : Int)
       else Value.string body) ∧
    Value.parse (45 :: body) =
      (if pureDec 0 body ≤ 2 ^ 63 - 1 then Value.integer (-((pureDec 0 body : Nat) : Int))
       else Value.string (45 :: body)) := by
  obtain ⟨b0, t, rfl⟩ : ∃ b0 t, body = b0 :: t := by
    cases body with
    | nil => exact absurd rfl hne
    | cons x t => exact ⟨x, t, rfl⟩
  have hb0 : (48 ≤ b0 ∧ b0 ≤ 57) ∨ b0 = 95 := by
    rcases hall b0 (by simp) with hx | hx
    · exact Or.inl (isAsciiDigit_iff b0 |>.1 hx)
    · exact Or.inr hx
  have hmem : ∀ b ∈ b0 :: t, b ≠ 105 ∧ b ≠ 114 := by
    intro b hb
    rcases hall b hb with hx | hx
    · obtain ⟨h1, h2⟩ := isAsciiDigit_iff b |>.1 hx
      omega
    · omega
  have hirl := no_ir_last (b0 :: t) hmem
  have hnum : ∀ (negative : Bool), parseAfterSign negative (b0 :: t) =
      (if pureDec 0 (b0 :: t) ≤ 2 ^ 63 - 1 then
        some (.integer (if negative then -((pureDec 0 (b0 :: t) : Nat) : Int)
          else ((pureDec 0 (b0 :: t) : Nat) : Int)))
      else none) := by
    intro negative
    rw [parseAfterSign_decimal negative (b0 :: t) hne hall,
      tryParseDecimal_spec negative (b0 :: t) hne hall]
  constructor
  · rw [parse_of_number (b0 :: t) b0 t rfl (by omega) (by omega) (by omega) (by omega)]
    rw [tryParseNumber_eq_afterSign (b0 :: t) hne hirl.1 hirl.2,
      if_neg (by simp; omega)]
    rw [hnum false]
    by_cases hbound : pureDec 0 (b0 :: t) ≤ 2 ^ 63 - 1
    · rw [if_pos hbound, if_pos hbound]
      simp
    · rw [if_neg hbound, if_neg hbound]
  · have hmem2 : ∀ b ∈ 45 :: b0 :: t, b ≠ 105 ∧ b ≠ 114 := by
      intro b hb
      rcases List.mem_cons.1 hb with rfl | hb2
      · omega
      · exact hmem b hb2
    have hirl2 := no_ir_last (45 :: b0 :: t) hmem2
    rw [parse_of_number (45 :: b0 :: t) 45 (b0 :: t) rfl
      (by omega) (by omega) (by omega) (by omega)]
    rw [tryParseNumber_eq_afterSign (45 :: b0 :: t) (by simp) hirl2.1 hirl2.2,
      if_pos (by simp)]
    rw [show (45 :: b0 :: t).tail = b0 :: t from rfl, hnum true]
    by_cases hbound : pureDec 0 (b0 :: t) ≤ 2 ^ 63 - 1
    · rw [if_pos hbound, if_pos hbound]
      simp
    · rw [if_neg hbound, if_neg hbound]

/-! ### Grammar-class lemmas for the temporal lexemes -/

theorem parse_dateLike (l : List Nat) (h : DateLike l) : Value.parse l = .string l := by
  obtain ⟨hall, h45, hhead⟩ := h
  obtain ⟨b0, t, rfl⟩ : ∃ b0 t, l = b0 :: t := by
    cases l with
    | nil => simp at h45
    | cons x t => exact ⟨x, t, rfl⟩
  have hb0 : 48 ≤ b0 ∧ b0 ≤ 57 := by simpa [DigitByte] using hhead
  have hdig : ∀ b ∈ b0 :: t, (48 ≤ b ∧ b ≤ 57) ∨ b = 45 := by
    intro b hb
    rcases hall b hb with hd | hd
    · exact Or.inl hd
    · exact Or.inr hd
  refine parse_string_pos (b0 :: t) b0 t rfl ⟨by omega, by omega, by omega, by omega, by omega⟩
    ?_ ?_ ?_ ?_ ?_
  · exact (no_ir_last _ (by intro b hb; rcases hdig b hb with hd | hd <;> omega)).1
  · exact (no_ir_last _ (by intro b hb; rcases hdig b hb with hd | hd <;> omega)).2
  · intro r0 r1 t2 heq h48
    refine Or.inl ?_
    have hr1 : r1 ∈ b0 :: t := by rw [heq]; simp
    rcases hdig r1 hr1 with hd | hd <;>
      exact ⟨by omega, by omega, by omega, by omega, by omega, by omega, by omega, by omega⟩
  · intro hcon
    exfalso
    rcases hcon with hm | hm | hm <;> rcases hdig _ hm with hd | hd <;> omega
  · exact ⟨45, h45, by decide⟩

theorem parse_timeLike (l : List Nat) (h : TimeLike l) : Value.parse l = .string l := by
  obtain ⟨hall, h58, hhead, hsnd⟩ := h
  obtain ⟨b0, t, rfl⟩ : ∃ b0 t, l = b0 :: t := by
    cases l with
    | nil => simp at h58
    | cons x t => exact ⟨x, t, rfl⟩
  have hb0 : 48 ≤ b0 ∧ b0 ≤ 57 := by simpa [DigitByte] using hhead
  have halpha : ∀ b ∈ b0 :: t, (48 ≤ b ∧ b ≤ 57) ∨ b = 45 ∨ b = 58 ∨ b = 46 ∨
      b = 84 ∨ b = 90 ∨ b = 43 := by
    intro b hb
    rcases hall b hb with hd | hd
    · exact Or.inl hd
    · exact Or.inr hd
  refine parse_string_pos (b0 :: t) b0 t rfl ⟨by omega, by omega, by omega, by omega, by omega⟩
    ?_ ?_ ?_ (fun _ => h58) ⟨58, h58, by decide⟩
  · exact (no_ir_last _ (by intro b hb; rcases halpha b hb with hd | hd <;> omega)).1
  · exact (no_ir_last _ (by intro b hb; rcases halpha b hb with hd | hd <;> omega)).2
  · intro r0 r1 t2 heq h48
    refine Or.inl ?_
    have hr1 : 48 ≤ r1 ∧ r1 ≤ 57 := by
      have := hsnd
      rw [heq] at this
      simpa [DigitByte] using this
    exact ⟨by omega, by omega, by omega, by omega, by omega, by omega, by omega, by omega⟩

theorem duration_facts (d : List Nat) (h : IsoDurationLike d ∨ ShorthandDuration d) :
    d ≠ [] ∧
    (∀ b ∈ d, b ≠ 105 ∧ b ≠ 114 ∧ b ≠ 46 ∧ b ≠ 101 ∧ b ≠ 69) ∧
    (∃ b ∈ d, ¬(isAsciiDigit b = true ∨ b = 95)) ∧
    (∀ r0 r1 t2, d = r0 :: r1 :: t2 → r0 = 48 →
      (r1 ≠ 120 ∧ r1 ≠ 88 ∧ r1 ≠ 111 ∧ r1 ≠ 79 ∧ r1 ≠ 98 ∧ r1 ≠ 66 ∧
        r1 ≠ 100 ∧ r1 ≠ 68) ∨ t2 = []) ∧
    (∀ b, d.headD 0 = b → d ≠ [] → ((48 ≤ b ∧ b ≤ 57) ∨ b = 80)) := by
  rcases h with ⟨hne, hhead, halpha⟩ | ⟨ds, u, rfl, hds, hdsall, hu⟩
  · obtain ⟨t, rfl⟩ : ∃ t, d = 80 :: t := by
      cases d with
      | nil => exact absurd rfl hne
      | cons x t =>
        refine ⟨t, ?_⟩
        simp at hhead
        rw [hhead]
    have hmem : ∀ b ∈ 80 :: t, (48 ≤ b ∧ b ≤ 57) ∨ b = 80 ∨ b = 89 ∨ b = 77 ∨
        b = 87 ∨ b = 68 ∨ b = 84 ∨ b = 72 ∨ b = 83 := by
      intro b hb
      rcases halpha b hb with hd | hd
      · exact Or.inl hd
      · exact Or.inr hd
    refine ⟨by simp, ?_, ⟨80, by simp, by decide⟩, ?_, ?_⟩
    · intro b hb
      rcases hmem b hb with hd | hd <;>
        exact ⟨by omega, by omega, by omega, by omega, by omega⟩
    · intro r0 r1 t2 heq h48
      have h80 : 80 = r0 := by
        have h0 := congrArg (fun x => List.headD x 0) heq
        simpa using h0
      omega
    · intro b hb _
      simp at hb
      omega
  · simp only [List.mem_cons, List.not_mem_nil, or_false] at hu
    obtain ⟨d0, ds', rfl⟩ : ∃ d0 ds', ds = d0 :: ds' := by
      cases ds with
      | nil => exact absurd rfl hds
      | cons x t => exact ⟨x, t, rfl⟩
    have hd0 : 48 ≤ d0 ∧ d0 ≤ 57 := by simpa [DigitByte] using hdsall d0 (by simp)
    have humem : ∀ b ∈ u, b = 115 ∨ b = 109 ∨ b = 104 ∨ b = 100 ∨ b = 119 ∨
        b = 111 ∨ b = 121 := by
      intro b hb
      rcases hu with rfl | rfl | rfl | rfl | rfl | rfl | rfl <;> simp at hb <;> omega
    refine ⟨by simp, ?_, ?_, ?_, ?_⟩
    · intro b hb
      have hb' : b = d0 ∨ b ∈ ds' ∨ b ∈ u := by simpa using hb
      rcases hb' with rfl | hb2 | hb2
      · have := hdsall b (by simp)
        unfold DigitByte at this
        exact ⟨by omega, by omega, by omega, by omega, by omega⟩
      · have := hdsall b (by simp [hb2])
        unfold DigitByte at this
        exact ⟨by omega, by omega, by omega, by omega, by omega⟩
      · rcases humem b hb2 with hd | hd | hd | hd | hd | hd | hd <;>
          exact ⟨by omega, by omega, by omega, by omega, by omega⟩
    · rcases hu with rfl | rfl | rfl | rfl | rfl | rfl | rfl
      · exact ⟨115, by simp, by decide⟩
      · exact ⟨109, by simp, by decide⟩
      · exact ⟨104, by simp, by decide⟩
      · exact ⟨100, by simp, by decide⟩
      · exact ⟨119, by simp, by decide⟩
      · exact ⟨109, by simp, by decide⟩
      · exact ⟨121, by simp, by decide⟩
    · intro r0 r1 t2 heq h48
      cases ds' with
      | nil =>
        rcases hu with rfl | rfl | rfl | rfl | rfl | rfl | rfl <;> simp at heq
        · exact Or.inr heq.2.2
        · exact Or.inr heq.2.2
        · exact Or.inr heq.2.2
        · exact Or.inr heq.2.2
        · exact Or.inr heq.2.2
        · obtain ⟨_, h1, h2⟩ := heq
          exact Or.inl (by omega)
        · exact Or.inr heq.2.2
      | cons d1 ds'' =>
        have hd1 : 48 ≤ d1 ∧ d1 ≤ 57 := by simpa [DigitByte] using hdsall d1 (by simp)
        have hr1 : r1 = d1 := by
          have h0 := congrArg (fun x => List.getD x 1 0) heq
          simpa using h0.symm
        exact Or.inl (by omega)
    · intro b hb _
      simp at hb
      omega

theorem parse_durationLike (l : List Nat)
    (h : IsoDurationLike l ∨ ShorthandDuration l) : Value.parse l = .string l := by
  obtain ⟨hne, hmem, hbad, hguard, hhead⟩ := duration_facts l h
  obtain ⟨b0, t, rfl⟩ : ∃ b0 t, l = b0 :: t := by
    cases l with
    | nil => exact absurd rfl hne
    | cons x t => exact ⟨x, t, rfl⟩
  have hb0 : (48 ≤ b0 ∧ b0 ≤ 57) ∨ b0 = 80 := hhead b0 (by simp) (by simp)
  refine parse_string_pos (b0 :: t) b0 t rfl
    ⟨by omega, by omega, by omega, by omega, by omega⟩
    (no_ir_last _ (fun b hb => ⟨(hmem b hb).1, (hmem b hb).2.1⟩)).1
    (no_ir_last _ (fun b hb => ⟨(hmem b hb).1, (hmem b hb).2.1⟩)).2
    hguard ?_ hbad
  intro hcon
  exfalso
  rcases hcon with hm | hm | hm
  · exact (hmem _ hm).2.2.1 rfl
  · exact (hmem _ hm).2.2.2.1 rfl
  · exact (hmem _ hm).2.2.2.2 rfl

theorem parse_relTimeLike (l : List Nat) (h : RelativeTimeLike l) :
    Value.parse l = .string l := by
  obtain ⟨sg, d, hsg, rfl, hdur⟩ := h
  obtain ⟨hne, hmem, hbad, hguard, _⟩ := duration_facts d hdur
  have hmem2 : ∀ b ∈ sg :: d, b ≠ 105 ∧ b ≠ 114 := by
    intro b hb
    rcases List.mem_cons.1 hb with rfl | hb2
    · omega
    · exact ⟨(hmem b hb2).1, (hmem b hb2).2.1⟩
  rcases hsg with rfl | rfl
  · refine parse_string_pos (43 :: d) 43 d rfl
      ⟨by omega, by omega, by omega, by omega, by omega⟩
      (no_ir_last _ hmem2).1 (no_ir_last _ hmem2).2
      ?_ ?_ ⟨43, by simp, by decide⟩
    · intro r0 r1 t2 heq h48
      have h43 : 43 = r0 := by
        have h0 := congrArg (fun x => List.headD x 0) heq
        simpa using h0
      omega
    · intro hcon
      exfalso
      rcases hcon with hm | hm | hm <;> rcases List.mem_cons.1 hm with he | he
      · omega
      · exact (hmem _ he).2.2.1 rfl
      · omega
      · exact (hmem _ he).2.2.2.1 rfl
      · omega
      · exact (hmem _ he).2.2.2.2 rfl
  · refine parse_string_neg (45 :: d) d rfl hne
      (no_ir_last _ hmem2).1 (no_ir_last _ hmem2).2 hguard ?_ hbad
    intro hcon
    exfalso
    rcases hcon with hm | hm | hm
    · exact (hmem _ hm).2.2.1 rfl
    · exact (hmem _ hm).2.2.2.1 rfl
    · exact (hmem _ hm).2.2.2.2 rfl

/-! ### Claim theorems -/

/-- C2 (counterexample): the parse error code enumeration contains no code
named `InconsistentIndent`, and the event enumerations contain no `Warning`
variant — refuting the claimed 14-code set and the claimed warning severity. -/
theorem claim_C2_counterexample :
    (∀ c : ParseErrorCode, codeName c ≠ "InconsistentIndent") ∧
    (∀ k : EventKind, eventKindName k ≠ "Warning") := by
  constructor
  · intro c
    cases c <;> simp [codeName]
  · intro k
    cases k <;> simp [eventKindName]

/-- C2 (amended): every diagnostic code is one of the thirteen members of
`ParseErrorCode` (`Unclosed` … `NoTabs`); there is no `InconsistentIndent`
code, and the event enumerations have only the `Error` diagnostic variant —
no `Warning` severity exists. -/
theorem claim_C2_codes :
    (∀ c : ParseErrorCode, c ∈ ParseErrorCode.all) ∧
    ParseErrorCode.all.length = 13 ∧
    (∀ c : ParseErrorCode, codeName c ≠ "InconsistentIndent") ∧
    (∀ k : EventKind, eventKindName k ≠ "Warning") ∧
    eventKindName EventKind.error = "Error" := by
  refine ⟨?_, rfl, ?_, ?_, rfl⟩
  · intro c
    cases c <;> simp [ParseErrorCode.all]
  · intro c
    cases c <;> simp [codeName]
  · intro k
    cases k <;> simp [eventKindName]

/-- Closed instance of `claim_C2_codes` at concrete codes and kinds. -/
theorem claim_C2_witness :
    ParseErrorCode.noTabs ∈ ParseErrorCode.all ∧
    codeName ParseErrorCode.noTabs ≠ "InconsistentIndent" ∧
    eventKindName EventKind.error ≠ "Warning" :=
  ⟨claim_C2_codes.1 ParseErrorCode.noTabs,
   claim_C2_codes.2.2.1 ParseErrorCode.noTabs,
   claim_C2_codes.2.2.2.1 EventKind.error⟩

/-- C3: on a full ring `try_push` returns the event and leaves every field of
the ring unchanged; on a non-full ring it succeeds, stores the event at
`write_pos`, advances `write_pos` under the mask, and increments `count`. -/
theorem claim_C3_tryPush (α : Type) (r : EventRing α) (e : α) :
    (r.count = r.capacity → r.tryPush e = (r, some e)) ∧
    (r.count ≠ r.capacity →
      (r.tryPush e).2 = none ∧
      (r.tryPush e).1.count = r.count + 1 ∧
      (r.tryPush e).1.events = r.events.set r.writePos (some e) ∧
      (r.tryPush e).1.readPos = r.readPos ∧
      (r.tryPush e).1.writePos = (r.writePos + 1) &&& r.mask ∧
      (r.tryPush e).1.capacity = r.capacity ∧
      (r.tryPush e).1.mask = r.mask) := by
  constructor
  · intro h
    simp [EventRing.tryPush, h]
  · intro h
    refine ⟨?_, ?_, ?_, ?_, ?_, ?_, ?_⟩ <;> simp [EventRing.tryPush, h]

/-- Closed instance of `claim_C3_tryPush`: a full two-slot ring rejects and
is unchanged; an empty one accepts and counts one event. -/
theorem claim_C3_witness :
    (⟨[some 1, some 2], 0, 0, 2, 2, 1⟩ : EventRing Nat).tryPush 5 =
      ((⟨[some 1, some 2], 0, 0, 2, 2, 1⟩ : EventRing Nat), some 5) ∧
    ((⟨[none, none], 0, 0, 0, 2, 1⟩ : EventRing Nat).tryPush 7).2 = none ∧
    ((⟨[none, none], 0, 0, 0, 2, 1⟩ : EventRing Nat).tryPush 7).1.count = 1 :=
  ⟨(claim_C3_tryPush Nat _ 5).1 rfl,
   ((claim_C3_tryPush Nat ⟨[none, none], 0, 0, 0, 2, 1⟩ 7).2 (by decide)).1,
   ((claim_C3_tryPush Nat ⟨[none, none], 0, 0, 0, 2, 1⟩ 7).2 (by decide)).2.1⟩

/-- C4: observational FIFO refinement — any interleaving of `try_push` and
`pop` run on an `EventRing` produces exactly the outputs of the bounded
list-based FIFO queue of the ring's capacity: successful pushes append at
the back, pops return the front (or `none` when empty), and elements come
out in push order, wrap-around included. -/
theorem claim_C4_fifo (α : Type) (c : Nat) (ops : List (RingOp α)) :
    (runRing (EventRing.new c : EventRing α) ops).2 =
      (runSpec (EventRing.new c : EventRing α).capacity [] ops).2 :=
  (run_refines ops (EventRing.new c) [] (rel_new α c)).1

/-- Closed instance of `claim_C4_fifo`: pushing three events into a
two-slot ring and draining it matches the bounded queue, rejection and
wrap-around included. -/
theorem claim_C4_witness :
    (runRing (EventRing.new 2 : EventRing Nat)
        [.push 1, .push 2, .push 3, .pop, .push 4, .pop, .pop, .pop]).2 =
      (runSpec 2 []
        [.push 1, .push 2, .push 3, .pop, .push 4, .pop, .pop, .pop]).2 := by
  have h := claim_C4_fifo Nat 2
    [.push 1, .push 2, .push 3, .pop, .push 4, .pop, .pop, .pop]
  simpa using h

/-- C6 (counterexample): `resolve` a handle whose `end` exceeds the chunk
length: the chunk index is in range, so `Chunk::slice` runs and panics
(modelled by `Except.error`) instead of failing in-band — the program
aborts, refuting the no-abort claim. -/
theorem claim_C6_counterexample :
    (ChunkArena.new.push [1, 2, 3, 4, 5]).1.resolve ⟨0, 0, 10⟩ =
      some (.error ()) := rfl

/-- C6 (amended): `resolve` returns the byte range for every handle
satisfying `start ≤ end ≤ chunk.len` with `chunk_idx` in range, and returns
`None` when `chunk_idx` is out of range; but when `chunk_idx` is in range
and the byte range violates the invariant, it panics (Rust slice-index
abort) rather than reporting an invalid handle. -/
theorem claim_C6_resolve (a : ChunkArena) (s : ChunkSlice) :
    (∀ c, a.chunks[s.chunkIdx]? = some c → s.sliceStart ≤ s.sliceEnd →
      s.sliceEnd ≤ c.data.length →
      a.resolve s = some (.ok ((c.data.drop s.sliceStart).take (s.sliceEnd - s.sliceStart)))) ∧
    (a.chunks.length ≤ s.chunkIdx → a.resolve s = none) ∧
    (∀ c, a.chunks[s.chunkIdx]? = some c →
      ¬(s.sliceStart ≤ s.sliceEnd ∧ s.sliceEnd ≤ c.data.length) →
      a.resolve s = some (.error ())) := by
  refine ⟨?_, ?_, ?_⟩
  · intro c hc h1 h2
    simp [ChunkArena.resolve, hc, Chunk.slice, h1, h2]
  · intro h
    simp [ChunkArena.resolve, List.getElem?_eq_none h]
  · intro c hc h
    simp [ChunkArena.resolve, hc, Chunk.slice, h]

/-- Closed instance of `claim_C6_resolve`: a valid handle resolves to its
bytes; an out-of-range chunk index yields `none`. -/
theorem claim_C6_witness :
    (ChunkArena.new.push [1, 2, 3, 4, 5]).1.resolve ⟨0, 1, 3⟩ = some (.ok [2, 3]) ∧
    (ChunkArena.new.push [1, 2, 3, 4, 5]).1.resolve ⟨7, 0, 0⟩ = none := by
  constructor
  · have h := (claim_C6_resolve (ChunkArena.new.push [1, 2, 3, 4, 5]).1 ⟨0, 1, 3⟩).1
      ⟨[1, 2, 3, 4, 5], 0⟩ rfl (by decide) (by decide)
    simpa using h
  · exact (claim_C6_resolve _ _).2.1 (by decide)

/-- C7 (counterexample): `EventRing::new(1)` has capacity 2, although the
smallest power of two that is `≥ 1` is `2 ^ 0 = 1` — the requested minimum
is first clamped to 2, refuting the claim at `c = 1`. -/
theorem claim_C7_counterexample :
    (EventRing.new 1 : EventRing Nat).capacity = 2 ∧
    (1 : Nat) = 2 ^ 0 ∧ 1 ≤ (1 : Nat) ∧
    (EventRing.new 1 : EventRing Nat).capacity ≠ 1 :=
  ⟨rfl, rfl, Nat.le_refl 1, by decide⟩

/-- C7 (amended): the capacity of `EventRing::new(c)` is the smallest power
of two that is at least `max c 2`, the mask is `capacity - 1`, and the
fresh ring's count is `0 ≤ capacity`. -/
theorem claim_C7_newCapacity (α : Type) (c : Nat) :
    (∃ k, (EventRing.new c : EventRing α).capacity = 2 ^ k) ∧
    max c 2 ≤ (EventRing.new c : EventRing α).capacity ∧
    (∀ p, (∃ k, p = 2 ^ k) → max c 2 ≤ p →
      (EventRing.new c : EventRing α).capacity ≤ p) ∧
    (EventRing.new c : EventRing α).mask = (EventRing.new c : EventRing α).capacity - 1 ∧
    (EventRing.new c : EventRing α).count = 0 ∧
    (EventRing.new c : EventRing α).count ≤ (EventRing.new c : EventRing α).capacity := by
  obtain ⟨hpow, hge, hmin⟩ := nextPowerOfTwo_spec (max c 2)
  refine ⟨hpow, hge, ?_, rfl, rfl, Nat.zero_le _⟩
  rintro p ⟨k, rfl⟩ hp
  exact hmin k hp

/-- Closed instance of `claim_C7_newCapacity`: for requested capacity 5 the
ring capacity is 8, and minimality applies at the power of two 8. -/
theorem claim_C7_witness :
    (EventRing.new 5 : EventRing Nat).capacity = 8 ∧
    (EventRing.new 5 : EventRing Nat).capacity ≤ 8 :=
  ⟨rfl, (claim_C7_newCapacity Nat 5).2.2.1 8 ⟨3, rfl⟩ (by decide)⟩

/-- C8: from an empty arena, successive pushes return the consecutive chunk
indices 0, 1, 2, …; each chunk's recorded stream offset is the total length
of all earlier chunks; `total_bytes` is the sum of all chunk lengths; and
the recorded offsets are monotonically non-decreasing in index order.
Stated within the machine ranges of the index (`u32`) and byte-total
(`u64`) counters. -/
theorem claim_C8_arena (datas : List (List Nat))
    (hcnt : datas.length ≤ 2 ^ 32)
    (hbytes : (datas.map List.length).sum < 2 ^ 64) :
    (ChunkArena.new.pushAll datas).2 = List.range datas.length ∧
    (ChunkArena.new.pushAll datas).1.totalBytes = (datas.map List.length).sum ∧
    ((ChunkArena.new.pushAll datas).1.chunks.map Chunk.streamOffset) =
      (List.range datas.length).map (fun i => ((datas.take i).map List.length).sum) ∧
    (∀ i j, i ≤ j → j < datas.length →
      ((ChunkArena.new.pushAll datas).1.chunks.map Chunk.streamOffset).getD i 0 ≤
      ((ChunkArena.new.pushAll datas).1.chunks.map Chunk.streamOffset).getD j 0) := by
  obtain ⟨h1, h2, h3⟩ := pushAll_spec datas ChunkArena.new
    (by simpa [ChunkArena.new] using hcnt) (by simpa [ChunkArena.new] using hbytes)
  have hoff : ((ChunkArena.new.pushAll datas).1.chunks.map Chunk.streamOffset) =
      (List.range datas.length).map (fun i => ((datas.take i).map List.length).sum) := by
    rw [h3]
    show (offsetChunks 0 datas).map Chunk.streamOffset = _
    rw [offsetChunks_offsets datas 0]
    apply List.map_congr_left
    intro i _
    omega
  refine ⟨?_, ?_, hoff, ?_⟩
  · rw [h1]
    simp [ChunkArena.new]
  · rw [h2]
    simp [ChunkArena.new]
  · intro i j hij hj
    rw [hoff, getD_range_map _ _ _ (by omega), getD_range_map _ _ _ hj]
    exact take_sum_le datas i j hij

/-- Closed instance of `claim_C8_arena` on two concrete chunks. -/
theorem claim_C8_witness :
    (ChunkArena.new.pushAll [[1, 2], [3]]).2 = [0, 1] ∧
    (ChunkArena.new.pushAll [[1, 2], [3]]).1.totalBytes = 3 ∧
    ((ChunkArena.new.pushAll [[1, 2], [3]]).1.chunks.map Chunk.streamOffset) = [0, 2] := by
  obtain ⟨h1, h2, h3, _⟩ := claim_C8_arena [[1, 2], [3]] (by norm_num) (by norm_num)
  refine ⟨?_, ?_, ?_⟩
  · rw [h1]; rfl
  · rw [h2]; rfl
  · rw [h3]; rfl

/-- C10: `new` establishes and `try_push`, `pop`, `clear` preserve the ring
invariant (positions below capacity, count bounded by capacity, power-of-two
capacity with `mask = capacity - 1`, storage of exactly `capacity` slots);
consequently every index the operations and `peek`/`iter` use —
`read_pos`, `write_pos`, and `(read_pos + i) &&& mask` — is inside the
events vector, so the unchecked indexing never goes out of bounds. -/
theorem claim_C10_invariant (α : Type) (c : Nat) (r : EventRing α) (e : α) :
    (EventRing.new c : EventRing α).Inv ∧
    (r.Inv → (r.tryPush e).1.Inv) ∧
    (r.Inv → r.pop.2.Inv) ∧
    (r.Inv → r.clear.Inv) ∧
    (r.Inv → r.readPos < r.events.length) ∧
    (r.Inv → r.count ≠ r.capacity → r.writePos < r.events.length) ∧
    (r.Inv → ∀ i, i < r.count → (r.readPos + i) &&& r.mask < r.events.length) := by
  refine ⟨inv_new α c, fun h => inv_tryPush h e, fun h => inv_pop h,
    fun h => inv_clear h, ?_, ?_, ?_⟩
  · intro h
    rw [h.2.2.2.2.2]
    exact h.2.2.1
  · intro h _
    rw [h.2.2.2.2.2]
    exact h.2.2.2.1
  · intro h i _
    rw [h.2.2.2.2.2, maskMod h]
    exact Nat.mod_lt _ (capacity_pos h)

/-- Closed instance of `claim_C10_invariant`: the invariant holds for a
fresh ring and survives a push, and the read index is in bounds. -/
theorem claim_C10_witness :
    (EventRing.new 3 : EventRing Nat).Inv ∧
    ((EventRing.new 3 : EventRing Nat).tryPush 7).1.Inv ∧
    (EventRing.new 3 : EventRing Nat).readPos <
      (EventRing.new 3 : EventRing Nat).events.length := by
  have h := claim_C10_invariant Nat 3 (EventRing.new 3) 7
  exact ⟨h.1, h.2.1 h.1, h.2.2.2.2.1 h.1⟩

/-- C1 (counterexample): the date lexeme `2024-01-15` is classified by
`Value::parse` as `String`, not `Date`, and no event variant named `Date`,
`Time`, `DateTime`, `Duration` or `RelativeTime` exists in the event
enumerations. -/
theorem claim_C1_counterexample :
    Value.parse [50, 48, 50, 52, 45, 48, 49, 45, 49, 53] =
      Value.string [50, 48, 50, 52, 45, 48, 49, 45, 49, 53] ∧
    (∀ k : EventKind, eventKindName k ≠ "Date" ∧ eventKindName k ≠ "Time" ∧
      eventKindName k ≠ "DateTime" ∧ eventKindName k ≠ "Duration" ∧
      eventKindName k ≠ "RelativeTime") := by
  refine ⟨rfl, ?_⟩
  intro k
  cases k <;> simp [eventKindName]

/-- C1 (amended): every lexeme of the calendar grammars (`YYYY-MM[-DD]`,
`HH:MM[:SS[.frac]]`, `date 'T' time [Z | ±HH:MM]`), of the duration grammars
(ISO and shorthand), and of the relative-time grammar (`+`/`-` then a
duration) is classified by `Value::parse` as `String` — the fallback — and
the event enumerations carry no `Date`/`Time`/`DateTime`/`Duration`/
`RelativeTime` value events.  `DateLike` covers all date lexemes, `TimeLike`
all time and date-time lexemes. -/
theorem claim_C1_temporal (l : List Nat) :
    (DateLike l → Value.parse l = Value.string l) ∧
    (TimeLike l → Value.parse l = Value.string l) ∧
    (IsoDurationLike l → Value.parse l = Value.string l) ∧
    (ShorthandDuration l → Value.parse l = Value.string l) ∧
    (RelativeTimeLike l → Value.parse l = Value.string l) ∧
    (∀ k : EventKind,
      eventKindName k ∉ (["Date", "Time", "DateTime", "Duration", "RelativeTime"] : List String)) := by
  refine ⟨parse_dateLike l, parse_timeLike l,
    fun h => parse_durationLike l (Or.inl h),
    fun h => parse_durationLike l (Or.inr h),
    parse_relTimeLike l, ?_⟩
  intro k
  cases k <;> simp [eventKindName]

/-- Closed instance of `claim_C1_temporal` at the lexemes `2024-01`,
`12:34:56.7`, `P1Y`, `5mo` and `+3d`: all parse as `String`. -/
theorem claim_C1_witness :
    Value.parse [50, 48, 50, 52, 45, 48, 49] =
      Value.string [50, 48, 50, 52, 45, 48, 49] ∧
    Value.parse [49, 50, 58, 51, 52, 58, 53, 54, 46, 55] =
      Value.string [49, 50, 58, 51, 52, 58, 53, 54, 46, 55] ∧
    Value.parse [80, 49, 89] = Value.string [80, 49, 89] ∧
    Value.parse [53, 109, 111] = Value.string [53, 109, 111] ∧
    Value.parse [43, 51, 100] = Value.string [43, 51, 100] :=
  ⟨(claim_C1_temporal _).1 (by refine ⟨?_, ?_, ?_⟩ <;> decide),
   (claim_C1_temporal _).2.1 (by refine ⟨?_, ?_, ?_, ?_⟩ <;> decide),
   (claim_C1_temporal _).2.2.1 (by refine ⟨?_, ?_, ?_⟩ <;> decide),
   (claim_C1_temporal _).2.2.2.1
     ⟨[53], [109, 111], rfl, by decide, by decide, by decide⟩,
   (claim_C1_temporal _).2.2.2.2.1
     ⟨43, [51, 100], Or.inl rfl, rfl,
      Or.inr ⟨[51], [100], rfl, by decide, by decide, by decide⟩⟩⟩

/-- C5 (counterexample): the lexeme `-9223372036854775808` denotes
`i64::MIN`, which is inside the signed 64-bit range, yet `Value::parse`
classifies it as `String`: the magnitude `2^63` overflows the positive
checked accumulation before the negation is applied. -/
theorem claim_C5_counterexample :
    Value.parse [45, 57, 50, 50, 51, 51, 55, 50, 48, 51, 54, 56, 53, 52, 55,
        55, 53, 56, 48, 56] =
      Value.string [45, 57, 50, 50, 51, 51, 55, 50, 48, 51, 54, 56, 53, 52,
        55, 55, 53, 56, 48, 56] ∧
    pureDec 0 [57, 50, 50, 51, 51, 55, 50, 48, 51, 54, 56, 53, 52, 55, 55,
        53, 56, 48, 56] = 2 ^ 63 ∧
    i64Min = -((2 ^ 63 : Nat) : Int) := by
  refine ⟨rfl, by decide, by decide⟩

/-- C5 (amended): for a lexeme of an optional `-` followed by a non-empty
run of decimal digits and `_` separators with mathematical value `v`:
`Value::parse` yields `Integer(v)` when `|v| ≤ 2^63 - 1`, and falls back to
`String` when `|v| > 2^63 - 1` — in particular the in-range value
`v = i64::MIN = -2^63` also falls back to `String`. -/
theorem claim_C5_decimal (body : List Nat) (hne : body ≠ [])
    (hall : ∀ b ∈ body, isAsciiDigit b = true ∨ b = 95) :
    Value.parse body =
      (if pureDec 0 body ≤ 2 ^ 63 - 1 then Value.integer ((pureDec 0 body : Nat) : Int)
       else Value.string body) ∧
    Value.parse (45 :: body) =
      (if pureDec 0 body ≤ 2 ^ 63 - 1 then Value.integer (-((pureDec 0 body : Nat) : Int))
       else Value.string (45 :: body)) :=
  parse_decimal_all body hne hall

/-- Closed instance of `claim_C5_decimal` at the lexemes `42` and `-42`. -/
theorem claim_C5_witness :
    Value.parse [52, 50] = Value.integer 42 ∧
    Value.parse [45, 52, 50] = Value.integer (-42) := by
  obtain ⟨h1, h2⟩ := claim_C5_decimal [52, 50] (by decide) (by decide)
  constructor
  · rw [h1]
    rfl
  · rw [h2]
    rfl

/-- C9: a non-empty all-underscore lexeme parses as `Integer(0)`, and so
does a `0x`/`0X`/`0o`/`0O`/`0b`/`0B`/`0d`/`0D` base prefix followed only by
underscores: the separator-skipping loops accept a digitless run and return
the zero accumulator. -/
theorem claim_C9_underscores (l u : List Nat) (x : Nat)
    (hl : l ≠ []) (hall : ∀ b ∈ l, b = 95)
    (hx : x = 120 ∨ x = 88 ∨ x = 111 ∨ x = 79 ∨ x = 98 ∨ x = 66 ∨ x = 100 ∨ x = 68)
    (hu : u ≠ []) (huall : ∀ b ∈ u, b = 95) :
    Value.parse l = Value.integer 0 ∧ Value.parse (48 :: x :: u) = Value.integer 0 := by
  constructor
  · have h1 := (parse_decimal_all l hl (fun b hb => Or.inr (hall b hb))).1
    rw [pureDec_underscores l 0 hall, if_pos (by norm_num)] at h1
    simpa using h1
  · have hmemL : ∀ b ∈ 48 :: x :: u, b ≠ 105 ∧ b ≠ 114 := by
      intro b hb
      rcases List.mem_cons.1 hb with rfl | hb2
      · omega
      · rcases List.mem_cons.1 hb2 with rfl | hb3
        · omega
        · have := huall b hb3
          omega
    have hirl := no_ir_last (48 :: x :: u) hmemL
    have hnum : tryParseNumber (48 :: x :: u) = some (Value.integer 0) := by
      rw [tryParseNumber_eq_afterSign _ (by simp) hirl.1 hirl.2, if_neg (by simp)]
      unfold parseAfterSign
      rw [if_neg (by simp)]
      have hdrop : (48 :: x :: u).drop 2 = u := rfl
      rcases hx with rfl | rfl | rfl | rfl | rfl | rfl | rfl | rfl
      · rw [if_pos ⟨by simp, by simp, by simp⟩, hdrop]
        unfold tryParseHex
        rw [if_neg hu, hexLoop_underscores u 0 huall]
        simp
      · rw [if_pos ⟨by simp, by simp, by simp⟩, hdrop]
        unfold tryParseHex
        rw [if_neg hu, hexLoop_underscores u 0 huall]
        simp
      · rw [if_neg (by rintro ⟨_, _, h | h⟩ <;> simp at h),
          if_pos ⟨by simp, by simp, by simp⟩, hdrop]
        unfold tryParseOctal
        rw [if_neg hu, octLoop_underscores u 0 huall]
        simp
      · rw [if_neg (by rintro ⟨_, _, h | h⟩ <;> simp at h),
          if_pos ⟨by simp, by simp, by simp⟩, hdrop]
        unfold tryParseOctal
        rw [if_neg hu, octLoop_underscores u 0 huall]
        simp
      · rw [if_neg (by rintro ⟨_, _, h | h⟩ <;> simp at h),
          if_neg (by rintro ⟨_, _, h | h⟩ <;> simp at h),
          if_pos ⟨by simp, by simp, by simp⟩, hdrop]
        unfold tryParseBinary
        rw [if_neg hu, binLoop_underscores u 0 huall]
        simp
      · rw [if_neg (by rintro ⟨_, _, h | h⟩ <;> simp at h),
          if_neg (by rintro ⟨_, _, h | h⟩ <;> simp at h),
          if_pos ⟨by simp, by simp, by simp⟩, hdrop]
        unfold tryParseBinary
        rw [if_neg hu, binLoop_underscores u 0 huall]
        simp
      · rw [if_neg (by rintro ⟨_, _, h | h⟩ <;> simp at h),
          if_neg (by rintro ⟨_, _, h | h⟩ <;> simp at h),
          if_neg (by rintro ⟨_, _, h | h⟩ <;> simp at h),
          if_pos ⟨by simp, by simp, by simp⟩, hdrop]
        unfold tryParseDecimal
        rw [if_neg hu, decLoop_underscores u 0 huall]
        simp
      · rw [if_neg (by rintro ⟨_, _, h | h⟩ <;> simp at h),
          if_neg (by rintro ⟨_, _, h | h⟩ <;> simp at h),
          if_neg (by rintro ⟨_, _, h | h⟩ <;> simp at h),
          if_pos ⟨by simp, by simp, by simp⟩, hdrop]
        unfold tryParseDecimal
        rw [if_neg hu, decLoop_underscores u 0 huall]
        simp
    rw [parse_of_number (48 :: x :: u) 48 (x :: u) rfl
      (by omega) (by omega) (by omega) (by omega), hnum]

/-- Closed instance of `claim_C9_underscores` at the lexemes `_` and `0x_`. -/
theorem claim_C9_witness :
    Value.parse [95] = Value.integer 0 ∧
    Value.parse [48, 120, 95] = Value.integer 0 := by
  have h := claim_C9_underscores [95] [95] 120 (by decide) (by decide)
    (Or.inl rfl) (by decide) (by decide)
  exact ⟨h.1, h.2⟩

end Udon
